import Mathlib

/-!
# Connection-string parsing of `@vercel/edge-config` utils

A shallow embedding of `src/packages/edge-config/src/utils/index.ts`:
the functions `parseVercelConnectionString`, `parseExternalConnectionString`
and `parseConnectionString`, together with a model of the WHATWG `URL`
platform API they rely on (`new URL(text)`, `.host`, `.protocol`,
`.pathname`, `.searchParams.get`, `url.search = ''`, `url.toString()`).

The `URL` model parses the hierarchical form `scheme://[userinfo@]host[/path][?query][#fragment]`
and mirrors the observable behaviour the source code depends on:
the scheme and host are ASCII-lowercased, the pathname always starts with `/`,
the query is split on `&` with empty pieces dropped and each piece split at its
first `=`, `searchParams.get` returns the first matching pair, and
serialization re-appends `?query` and `#fragment` when present.
Percent-decoding, `+`-as-space decoding, dot-segment path normalization,
host punycoding/validation and the lenient slash handling of special schemes
are not modelled; inputs are treated as the literal code points given.
-/

/-- Lowercases a single ASCII letter, models the host/scheme normalization of `new URL`. -/
def asciiToLower (c : Char) : Char :=
  if 65 ≤ c.toNat ∧ c.toNat ≤ 90 then Char.ofNat (c.toNat + 32) else c

/-- Lowercases the ASCII letters of a string. -/
def strLower (s : String) : String := String.mk (s.data.map asciiToLower)

/-- Splits a list at the first character satisfying `p`; the delimiter (when found)
starts the second component. -/
def splitAtFirst (p : Char → Bool) : List Char → List Char × List Char
  | [] => ([], [])
  | c :: cs =>
    if p c then ([], c :: cs)
    else
      let r := splitAtFirst p cs
      (c :: r.1, r.2)

/-- Splits a list at the last character satisfying `p`: first component is everything
before that character, second everything after it.  With no such character the
first component is empty and the second is the whole list. -/
def splitAtLast (p : Char → Bool) (l : List Char) : List Char × List Char :=
  match splitAtFirst p l.reverse with
  | (revAfter, _ :: revBefore) => (revBefore.reverse, revAfter.reverse)
  | (revAfter, []) => ([], revAfter.reverse)

/-- Splits a list on every occurrence of `sep`, like JavaScript `String.prototype.split`
with a single-character separator (so `splitOnChar '/' "/".data = [[], []]`). -/
def splitOnChar (sep : Char) : List Char → List (List Char)
  | [] => [[]]
  | c :: cs =>
    if c = sep then [] :: splitOnChar sep cs
    else
      match splitOnChar sep cs with
      | [] => [[c]]
      | piece :: pieces => (c :: piece) :: pieces

/-- Character class terminating the authority component: `/`, `?` or `#`. -/
def delimAuth (c : Char) : Bool := c == '/' || c == '?' || c == '#'

/-- Character class terminating the path component: `?` or `#`. -/
def delimPath (c : Char) : Bool := c == '?' || c == '#'

/-- Scheme characters allowed after the first: ASCII alphanumerics and `+`, `-`, `.`. -/
def isSchemeChar (c : Char) : Bool :=
  c.isAlpha || c.isDigit || c == '+' || c == '-' || c == '.'

/-- Validity of a scheme given as a character list: nonempty, starts with a letter,
rest are scheme characters. -/
def isValidSchemeChars : List Char → Bool
  | [] => false
  | c :: rest => c.isAlpha && rest.all isSchemeChar

/-- Validity of a scheme string. -/
def isValidScheme (s : String) : Bool := isValidSchemeChars s.data

/-- Model of a parsed WHATWG `URL` object, restricted to the components the
source code observes.  `scheme` omits the trailing `:` of `url.protocol`;
`host` includes the port when present, as in JavaScript; `query` omits the
leading `?` and `fragment` the leading `#`, with `none` meaning the component
is absent (`url.search = ''` sets `query := none`). -/
structure URLRecord where
  scheme : String
  userinfo : Option String
  host : String
  pathname : String
  query : Option String
  fragment : Option String
deriving Repr, DecidableEq

/-- Splits an authority into optional userinfo (before the last `@`) and host. -/
def splitAuthorityChars (auth : List Char) : Option (List Char) × List Char :=
  if auth.contains '@' then
    let r := splitAtLast (fun c => c == '@') auth
    (some r.1, r.2)
  else (none, auth)

/-- Builds a `URLRecord` from raw parsed components, applying the
normalizations of `new URL`: scheme and host lowercased, empty path
replaced by `/`. -/
def mkURL (schemeChars : List Char) (userinfo : Option (List Char))
    (hostChars pathChars : List Char) (query fragment : Option String) : URLRecord :=
  { scheme := strLower (String.mk schemeChars)
    userinfo := userinfo.map String.mk
    host := strLower (String.mk hostChars)
    pathname := if pathChars = [] then "/" else String.mk pathChars
    query := query
    fragment := fragment }

/-- Parses the part following the path: nothing, a `?query` possibly followed by
a `#fragment`, or a bare `#fragment`. -/
def parseTail (schemeChars : List Char) (userinfo : Option (List Char))
    (hostChars pathChars rest₂ : List Char) : Option URLRecord :=
  match rest₂ with
  | [] => some (mkURL schemeChars userinfo hostChars pathChars none none)
  | '?' :: qs =>
    match splitAtFirst (fun c => c == '#') qs with
    | (qChars, '#' :: fs) =>
      some (mkURL schemeChars userinfo hostChars pathChars
        (some (String.mk qChars)) (some (String.mk fs)))
    | (qChars, _) =>
      some (mkURL schemeChars userinfo hostChars pathChars
        (some (String.mk qChars)) none)
  | '#' :: fs =>
    some (mkURL schemeChars userinfo hostChars pathChars none
      (some (String.mk fs)))
  | _ => none

/-- Parses the path, query and fragment components from the part following the
authority. -/
def parsePathQF (schemeChars : List Char) (userinfo : Option (List Char))
    (hostChars rest₁ : List Char) : Option URLRecord :=
  match splitAtFirst delimPath rest₁ with
  | (pathChars, rest₂) => parseTail schemeChars userinfo hostChars pathChars rest₂

/-- Parses the authority and everything after it, given the scheme characters. -/
def parseAfterScheme (schemeChars afterScheme : List Char) : Option URLRecord :=
  if isValidSchemeChars schemeChars then
    match splitAtFirst delimAuth afterScheme with
    | (authChars, rest₁) =>
      match splitAuthorityChars authChars with
      | (userinfo, hostChars) =>
        if hostChars = [] then none
        else parsePathQF schemeChars userinfo hostChars rest₁
  else none

/-- Parses a character list as an absolute hierarchical URL, returning `none`
where `new URL(text)` would throw. -/
def parseURLChars (l : List Char) : Option URLRecord :=
  match splitAtFirst (fun c => c == ':') l with
  | (schemeChars, ':' :: '/' :: '/' :: afterScheme) =>
    parseAfterScheme schemeChars afterScheme
  | _ => none

/-- Models `new URL(text)`: `some` a record on success, `none` where the
constructor would throw. -/
def parseURL (text : String) : Option URLRecord := parseURLChars text.data

/-- Models `url.toString()` (the URL serializer) on the modelled components. -/
def urlToString (u : URLRecord) : String :=
  u.scheme ++ "://" ++
    (match u.userinfo with | none => "" | some ui => ui ++ "@") ++
    u.host ++ u.pathname ++
    (match u.query with | none => "" | some q => "?" ++ q) ++
    (match u.fragment with | none => "" | some f => "#" ++ f)

/-- Serialized authority characters: optional userinfo followed by `@`, then the host. -/
def authListOf (userinfo : Option (List Char)) (hostChars : List Char) : List Char :=
  match userinfo with
  | none => hostChars
  | some ui => ui ++ '@' :: hostChars

/-- Serialized query characters including the leading `?`, empty when absent. -/
def queryChars : Option String → List Char
  | none => []
  | some q => '?' :: q.data

/-- Serialized fragment characters including the leading `#`, empty when absent. -/
def fragmentChars : Option String → List Char
  | none => []
  | some f => '#' :: f.data

/-- Splits one `key=value` piece of a query string at its first `=`;
a piece with no `=` gets the empty value. -/
def parsePair (piece : List Char) : String × String :=
  match splitAtFirst (fun c => c == '=') piece with
  | (k, _ :: v) => (String.mk k, String.mk v)
  | (k, []) => (String.mk k, "")

/-- Splits a query string into its `key=value` pairs, dropping empty pieces,
as `URLSearchParams` does. -/
def parseQueryPairs (q : String) : List (String × String) :=
  ((splitOnChar '&' q.data).filter (fun piece => !piece.isEmpty)).map parsePair

/-- Models `url.searchParams.get(key)`: the value of the first pair with the
given key, or `none` when absent. -/
def searchParamsGet (u : URLRecord) (key : String) : Option String :=
  match u.query with
  | none => none
  | some q => ((parseQueryPairs q).find? (fun p => p.1 == key)).map Prod.snd

/-- Discriminates which recognizer produced a `Connection`; the source uses the
string literals `'vercel'` and `'external'`. -/
inductive ConnectionType where
  | vercel : ConnectionType
  | external : ConnectionType
deriving Repr, DecidableEq

/-- Embeds the `Connection` record returned by the parser. -/
structure Connection where
  type : ConnectionType
  baseUrl : String
  id : String
  token : String
  version : String
deriving Repr, DecidableEq

/-- Models JavaScript falsiness of a `string | null` value: `null` and `''` are falsy. -/
def jsFalsy : Option String → Bool
  | none => true
  | some s => s == ""

/-- Models `x || d` for a `string | null` value `x` and a string default `d`. -/
def jsOrDefault (o : Option String) (d : String) : String :=
  match o with
  | none => d
  | some s => if s == "" then d else s

/-- Models `x || null` for a string `x` (possibly the empty result of an
out-of-range index): the empty string becomes `null`. -/
def jsNonEmpty (s : String) : Option String :=
  if s == "" then none else some s

/-- Models `url.pathname.split('/')[1]`, with JavaScript `undefined` collapsed
to the empty string (both are falsy where the source tests the result). -/
def firstPathSegment (pathname : String) : String :=
  (((splitOnChar '/' pathname.data).map String.mk).getD 1 "")

/-- Embeds `parseVercelConnectionString` from `src/packages/edge-config/src/utils/index.ts`
(lines 62-85), with the checks in source order: host, then protocol, then the
`/ecfg` path prefix, then a nonempty first path segment (`!id`), then a
non-falsy `token` query parameter (`!token || token === ''`). -/
def parseVercelConnectionString (text : String) : Option Connection :=
  match parseURL text with
  | none => none
  | some url =>
    if url.host != "edge-config.vercel.com" then none
    else if url.scheme != "https" then none
    else if !("/ecfg".data.isPrefixOf url.pathname.data) then none
    else if firstPathSegment url.pathname == "" then none
    else if jsFalsy (searchParamsGet url "token") then none
    else some {
      type := ConnectionType.vercel
      baseUrl := "https://edge-config.vercel.com/" ++ firstPathSegment url.pathname
      id := firstPathSegment url.pathname
      version := "1"
      token := (searchParamsGet url "token").getD "" }

/-- Embeds the id resolution of `parseExternalConnectionString` (source lines
118-125): the `id` query parameter, overridden by the first path segment
(`url.pathname.split('/')[1] || null`) when the parameter is falsy or the
pathname starts with `/ecfg_`. -/
def resolvedId (url : URLRecord) : Option String :=
  if jsFalsy (searchParamsGet url "id") || "/ecfg_".data.isPrefixOf url.pathname.data then
    jsNonEmpty (firstPathSegment url.pathname)
  else searchParamsGet url "id"

/-- Embeds `parseExternalConnectionString` (lines 112-143 of the source). -/
def parseExternalConnectionString (connectionString : String) : Option Connection :=
  match parseURL connectionString with
  | none => none
  | some url =>
    if jsFalsy (resolvedId url) || jsFalsy (searchParamsGet url "token") then none
    else some {
      type := ConnectionType.external
      baseUrl := urlToString { url with query := none }
      id := (resolvedId url).getD ""
      token := (searchParamsGet url "token").getD ""
      version := jsOrDefault (searchParamsGet url "version") "1" }

/-- Embeds `parseConnectionString` (lines 154-160 of the source). -/
def parseConnectionString (connectionString : String) : Option Connection :=
  match parseVercelConnectionString connectionString with
  | some connection => some connection
  | none => parseExternalConnectionString connectionString

/-- Well-formedness facts that hold of every record produced by `parseURL`,
sufficient to re-parse its serialization. -/
structure URLWf (u : URLRecord) : Prop where
  scheme_valid : isValidScheme u.scheme = true
  scheme_lower : strLower u.scheme = u.scheme
  host_lower : strLower u.host = u.host
  host_ne : u.host.data ≠ []
  host_clean : ∀ c ∈ u.host.data, delimAuth c = false ∧ (c == '@') = false
  userinfo_clean : ∀ ui, u.userinfo = some ui → ∀ c ∈ ui.data, delimAuth c = false
  path_slash : ∃ rest, u.pathname.data = '/' :: rest
  path_clean : ∀ c ∈ u.pathname.data, delimPath c = false
  query_clean : ∀ q, u.query = some q → ∀ c ∈ q.data, (c == '#') = false

/-- Characters of the first component of `splitAtFirst` do not satisfy the predicate. -/
theorem splitAtFirst_fst_false (p : Char → Bool) :
    ∀ l : List Char, ∀ c ∈ (splitAtFirst p l).1, p c = false := by
  intro l
  induction l with
  | nil => intro c hc; simp [splitAtFirst] at hc
  | cons a as ih =>
    intro c hc
    by_cases hp : p a
    · simp [splitAtFirst, hp] at hc
    · simp only [splitAtFirst, hp] at hc
      simp only [Bool.false_eq_true, if_false, List.mem_cons] at hc
      rcases hc with rfl | hc
      · exact Bool.eq_false_iff.mpr hp
      · exact ih c hc

/-- The head of the second component of `splitAtFirst`, when present, satisfies
the predicate. -/
theorem splitAtFirst_snd_head (p : Char → Bool) :
    ∀ l : List Char, ∀ c t, (splitAtFirst p l).2 = c :: t → p c = true := by
  intro l
  induction l with
  | nil => intro c t h; simp [splitAtFirst] at h
  | cons a as ih =>
    intro c t h
    by_cases hp : p a
    · simp only [splitAtFirst, hp, if_true] at h
      cases h; exact hp
    · simp only [splitAtFirst, hp] at h
      simp only [Bool.false_eq_true, if_false] at h
      exact ih c t h

/-- The two components of `splitAtFirst` concatenate back to the input. -/
theorem splitAtFirst_append_eq (p : Char → Bool) :
    ∀ l : List Char, (splitAtFirst p l).1 ++ (splitAtFirst p l).2 = l := by
  intro l
  induction l with
  | nil => rfl
  | cons a as ih =>
    by_cases hp : p a
    · simp [splitAtFirst, hp]
    · simp [splitAtFirst, hp, ih]

/-- If no character of the list satisfies the predicate, `splitAtFirst` keeps the
whole list in the first component. -/
theorem splitAtFirst_of_forall_false (p : Char → Bool) :
    ∀ l : List Char, (∀ c ∈ l, p c = false) → splitAtFirst p l = (l, []) := by
  intro l
  induction l with
  | nil => intro _; rfl
  | cons a as ih =>
    intro h
    have ha : p a = false := h a (List.mem_cons_self a as)
    simp [splitAtFirst, ha, ih fun c hc => h c (List.mem_cons_of_mem a hc)]

/-- Computes `splitAtFirst` on a list whose first predicate-satisfying character
is the explicit middle one. -/
theorem splitAtFirst_append_cons (p : Char → Bool) (c : Char) (l₂ : List Char)
    (hc : p c = true) :
    ∀ l₁ : List Char, (∀ x ∈ l₁, p x = false) →
      splitAtFirst p (l₁ ++ c :: l₂) = (l₁, c :: l₂) := by
  intro l₁
  induction l₁ with
  | nil => intro _; simp [splitAtFirst, hc]
  | cons a as ih =>
    intro h
    have ha : p a = false := h a (List.mem_cons_self a as)
    simp [splitAtFirst, ha, ih fun x hx => h x (List.mem_cons_of_mem a hx)]

/-- The result of `splitOnChar` is never the empty list of pieces. -/
theorem splitOnChar_ne_nil (sep : Char) : ∀ l : List Char, splitOnChar sep l ≠ [] := by
  intro l
  induction l with
  | nil => simp [splitOnChar]
  | cons a as ih =>
    by_cases ha : a = sep
    · simp [splitOnChar, ha]
    · simp only [splitOnChar, ha, if_false]
      match h : splitOnChar sep as with
      | [] => exact absurd h ih
      | piece :: pieces => simp

/-- The first piece of `splitOnChar` is the longest separator-free prefix. -/
theorem splitOnChar_head (sep : Char) :
    ∀ l : List Char, ∃ t, splitOnChar sep l = l.takeWhile (fun c => !(c == sep)) :: t := by
  intro l
  induction l with
  | nil => exact ⟨[], rfl⟩
  | cons a as ih =>
    by_cases ha : a = sep
    · refine ⟨splitOnChar sep as, ?_⟩
      simp [splitOnChar, ha, List.takeWhile]
    · obtain ⟨t, ht⟩ := ih
      refine ⟨t, ?_⟩
      have hb : (a == sep) = false := beq_eq_false_iff_ne.mpr ha
      simp [splitOnChar, ha, ht, List.takeWhile, hb]

/-- Characters of any piece of `splitOnChar` differ from the separator. -/
theorem splitOnChar_mem_sep_false (sep : Char) :
    ∀ l : List Char, ∀ piece ∈ splitOnChar sep l, ∀ c ∈ piece, (c == sep) = false := by
  intro l
  induction l with
  | nil =>
    intro piece hp c hc
    simp [splitOnChar] at hp
    subst hp; simp at hc
  | cons a as ih =>
    intro piece hp c hc
    by_cases ha : a = sep
    · simp only [splitOnChar, ha, if_true, List.mem_cons] at hp
      rcases hp with rfl | hp
      · simp at hc
      · exact ih piece hp c hc
    · simp only [splitOnChar, ha] at hp
      simp only [if_false] at hp
      match h : splitOnChar sep as with
      | [] => exact absurd h (splitOnChar_ne_nil sep as)
      | q :: qs =>
        rw [h] at hp
        simp only [List.mem_cons] at hp
        rcases hp with rfl | hp
        · rcases List.mem_cons.mp hc with rfl | hc
          · exact beq_eq_false_iff_ne.mpr ha
          · exact ih q (h ▸ List.mem_cons_self q qs) c hc
        · exact ih piece (h ▸ List.mem_cons_of_mem q hp) c hc

/-- Characters of any piece of `splitOnChar` come from the input list. -/
theorem splitOnChar_mem_subset (sep : Char) :
    ∀ l : List Char, ∀ piece ∈ splitOnChar sep l, ∀ c ∈ piece, c ∈ l := by
  intro l
  induction l with
  | nil =>
    intro piece hp c hc
    simp [splitOnChar] at hp
    subst hp; simp at hc
  | cons a as ih =>
    intro piece hp c hc
    by_cases ha : a = sep
    · simp only [splitOnChar, ha, if_true, List.mem_cons] at hp
      rcases hp with rfl | hp
      · simp at hc
      · exact List.mem_cons_of_mem a (ih piece hp c hc)
    · simp only [splitOnChar, ha] at hp
      simp only [if_false] at hp
      match h : splitOnChar sep as with
      | [] => exact absurd h (splitOnChar_ne_nil sep as)
      | q :: qs =>
        rw [h] at hp
        simp only [List.mem_cons] at hp
        rcases hp with rfl | hp
        · rcases List.mem_cons.mp hc with rfl | hc
          · exact List.mem_cons_self c as
          · exact List.mem_cons_of_mem a (ih q (h ▸ List.mem_cons_self q qs) c hc)
        · exact List.mem_cons_of_mem a (ih piece (h ▸ List.mem_cons_of_mem q hp) c hc)

/-- A separator-free list is a single piece. -/
theorem splitOnChar_nosep (sep : Char) :
    ∀ l : List Char, (∀ c ∈ l, (c == sep) = false) → splitOnChar sep l = [l] := by
  intro l
  induction l with
  | nil => intro _; rfl
  | cons a as ih =>
    intro h
    have ha : ¬ a = sep := by
      have := h a (List.mem_cons_self a as)
      exact beq_eq_false_iff_ne.mp this
    simp [splitOnChar, ha, ih fun c hc => h c (List.mem_cons_of_mem a hc)]

/-- Computes `splitOnChar` across an explicit separator occurrence following a
separator-free prefix. -/
theorem splitOnChar_append_sep (sep : Char) (l₂ : List Char) :
    ∀ l₁ : List Char, (∀ c ∈ l₁, (c == sep) = false) →
      splitOnChar sep (l₁ ++ sep :: l₂) = l₁ :: splitOnChar sep l₂ := by
  intro l₁
  induction l₁ with
  | nil => intro _; simp [splitOnChar]
  | cons a as ih =>
    intro h
    have ha : ¬ a = sep := by
      have := h a (List.mem_cons_self a as)
      exact beq_eq_false_iff_ne.mp this
    have := ih fun c hc => h c (List.mem_cons_of_mem a hc)
    simp only [List.cons_append, splitOnChar, ha, if_false, List.append_eq, this]

/-- Two characters with equal scalar values are equal. -/
theorem char_eq_of_toNat_eq {c d : Char} (h : c.toNat = d.toNat) : c = d :=
  Char.ext (UInt32.eq_of_toBitVec_eq (BitVec.eq_of_toNat_eq h))

/-- Evaluates `Char.ofNat` on a valid scalar value. -/
theorem char_toNat_ofNat {n : Nat} (h : n.isValidChar) : (Char.ofNat n).toNat = n := by
  simp only [Char.ofNat, h, dif_pos, Char.ofNatAux, Char.toNat]
  rfl

/-- `asciiToLower` either fixes a character or sends an ASCII uppercase letter to
the corresponding lowercase scalar value. -/
theorem asciiToLower_cases (c : Char) :
    asciiToLower c = c ∨
      (65 ≤ c.toNat ∧ c.toNat ≤ 90 ∧ (asciiToLower c).toNat = c.toNat + 32) := by
  by_cases h : 65 ≤ c.toNat ∧ c.toNat ≤ 90
  · right
    refine ⟨h.1, h.2, ?_⟩
    have hv : (c.toNat + 32).isValidChar := by
      left
      omega
    simp only [asciiToLower, h, if_pos]
    exact char_toNat_ofNat hv
  · left
    simp [asciiToLower, h]

/-- If `asciiToLower c` equals a character outside the lowercase-letter range,
then `c` already equaled it. -/
theorem asciiToLower_eq_of (c d : Char) (hd : ¬(97 ≤ d.toNat ∧ d.toNat ≤ 122))
    (h : asciiToLower c = d) : c = d := by
  rcases asciiToLower_cases c with hc | ⟨h1, h2, h3⟩
  · rw [← hc, h]
  · exfalso
    apply hd
    rw [← h, h3]
    omega

/-- `asciiToLower` fixes characters outside the uppercase-letter range. -/
theorem asciiToLower_fix (c : Char) (h : ¬(65 ≤ c.toNat ∧ c.toNat ≤ 90)) :
    asciiToLower c = c := if_neg h

/-- Lowercasing is idempotent on characters. -/
theorem asciiToLower_idem (c : Char) : asciiToLower (asciiToLower c) = asciiToLower c := by
  rcases asciiToLower_cases c with hc | ⟨h1, h2, h3⟩
  · rw [hc, hc]
  · exact asciiToLower_fix _ (by rw [h3]; omega)

/-- Lowercasing preserves freedom from the authority delimiters. -/
theorem asciiToLower_delimAuth (c : Char) (h : delimAuth c = false) :
    delimAuth (asciiToLower c) = false := by
  by_contra hcon
  have htrue : delimAuth (asciiToLower c) = true := by
    cases hdc : delimAuth (asciiToLower c)
    · exact absurd hdc hcon
    · rfl
  have : asciiToLower c = '/' ∨ asciiToLower c = '?' ∨ asciiToLower c = '#' := by
    simp only [delimAuth, Bool.or_eq_true, beq_iff_eq] at htrue
    tauto
  rcases this with hc | hc | hc <;>
  · have := asciiToLower_eq_of c _ (by decide) hc
    rw [this] at h
    simp [delimAuth] at h

/-- Lowercasing preserves not being an `@`. -/
theorem asciiToLower_at (c : Char) (h : (c == '@') = false) :
    (asciiToLower c == '@') = false := by
  by_contra hcon
  have htrue : asciiToLower c = '@' := by
    cases hdc : (asciiToLower c == '@')
    · exact absurd hdc hcon
    · exact beq_iff_eq.mp hdc
  have := asciiToLower_eq_of c '@' (by decide) htrue
  rw [this] at h
  simp at h

/-- Transfers `≤` on `UInt32` to `≤` on the underlying naturals. -/
theorem uint32_le_iff (a b : UInt32) : a ≤ b ↔ a.toNat ≤ b.toNat :=
  UInt32.le_def.trans BitVec.le_def

/-- A character with scalar value in `[97, 122]` is a lowercase letter. -/
theorem char_isLower_of (c : Char) (h1 : 97 ≤ c.toNat) (h2 : c.toNat ≤ 122) :
    c.isLower = true := by
  have h97 : ((97 : UInt32)).toNat = 97 := by decide
  have h122 : ((122 : UInt32)).toNat = 122 := by decide
  have ha : (97 : UInt32) ≤ c.val := (uint32_le_iff _ _).mpr (by rw [h97]; exact h1)
  have hb : c.val ≤ (122 : UInt32) := (uint32_le_iff _ _).mpr (by rw [h122]; exact h2)
  simp [Char.isLower, ha, hb]

/-- Lowercasing preserves `Char.isAlpha`. -/
theorem asciiToLower_isAlpha (c : Char) (h : c.isAlpha = true) :
    (asciiToLower c).isAlpha = true := by
  rcases asciiToLower_cases c with hc | ⟨h1, h2, h3⟩
  · rw [hc]; exact h
  · have hl : (asciiToLower c).isLower = true :=
      char_isLower_of _ (by omega) (by omega)
    simp [Char.isAlpha, hl]

/-- Lowercasing preserves `isSchemeChar`. -/
theorem asciiToLower_isSchemeChar (c : Char) (h : isSchemeChar c = true) :
    isSchemeChar (asciiToLower c) = true := by
  rcases asciiToLower_cases c with hc | ⟨h1, h2, h3⟩
  · rw [hc]; exact h
  · have hl : (asciiToLower c).isLower = true :=
      char_isLower_of _ (by omega) (by omega)
    simp [isSchemeChar, Char.isAlpha, hl]

/-- Lowercasing preserves validity of a scheme character list. -/
theorem isValidSchemeChars_map_lower (l : List Char) (h : isValidSchemeChars l = true) :
    isValidSchemeChars (l.map asciiToLower) = true := by
  cases l with
  | nil => simp [isValidSchemeChars] at h
  | cons c rest =>
    simp only [isValidSchemeChars, Bool.and_eq_true, List.all_eq_true] at h
    simp only [List.map_cons, isValidSchemeChars, Bool.and_eq_true, List.all_eq_true]
    refine ⟨asciiToLower_isAlpha c h.1, ?_⟩
    intro x hx
    obtain ⟨y, hy, rfl⟩ := List.mem_map.mp hx
    exact asciiToLower_isSchemeChar y (h.2 y hy)

/-- Valid scheme characters are never `:`. -/
theorem isValidSchemeChars_no_colon (l : List Char) (h : isValidSchemeChars l = true) :
    ∀ c ∈ l, (c == ':') = false := by
  cases l with
  | nil => intro c hc; simp at hc
  | cons a rest =>
    simp only [isValidSchemeChars, Bool.and_eq_true, List.all_eq_true] at h
    intro c hc
    rcases List.mem_cons.mp hc with rfl | hc
    · by_contra hcon
      have : c = ':' := by
        cases hb : (c == ':')
        · exact absurd hb hcon
        · exact beq_iff_eq.mp hb
      rw [this] at h
      exact absurd h.1 (by decide)
    · have hsc := h.2 c hc
      by_contra hcon
      have : c = ':' := by
        cases hb : (c == ':')
        · exact absurd hb hcon
        · exact beq_iff_eq.mp hb
      rw [this] at hsc
      exact absurd hsc (by decide)

/-- Strings with equal character data are equal. -/
theorem strExt {s t : String} (h : s.data = t.data) : s = t := by
  cases s; cases t; exact congrArg String.mk h

/-- Rebuilding a string from its data is the identity. -/
theorem mk_data (s : String) : String.mk s.data = s := by
  cases s; rfl

/-- Data of a lowered string. -/
theorem strLower_data (s : String) : (strLower s).data = s.data.map asciiToLower := rfl

/-- Lowercasing strings is idempotent. -/
theorem strLower_idem (s : String) : strLower (strLower s) = strLower s := by
  apply strExt
  simp only [strLower_data, List.map_map]
  exact List.map_congr_left fun c _ => Function.comp_apply.trans (asciiToLower_idem c)

/-- Members of the first component of `splitAtFirst` come from the input. -/
theorem splitAtFirst_fst_mem (p : Char → Bool) (l : List Char) :
    ∀ c ∈ (splitAtFirst p l).1, c ∈ l := by
  intro c hc
  have := splitAtFirst_append_eq p l
  rw [← this]
  exact List.mem_append_left _ hc

/-- Members of the second component of `splitAtFirst` come from the input. -/
theorem splitAtFirst_snd_mem (p : Char → Bool) (l : List Char) :
    ∀ c ∈ (splitAtFirst p l).2, c ∈ l := by
  intro c hc
  have := splitAtFirst_append_eq p l
  rw [← this]
  exact List.mem_append_right _ hc

/-- A nonempty first component of `splitAtFirst` starts the input list with a
character not satisfying the predicate. -/
theorem splitAtFirst_fst_cons (p : Char → Bool) (l : List Char) (c : Char) (cs r : List Char)
    (h : splitAtFirst p l = (c :: cs, r)) : ∃ t, l = c :: t ∧ p c = false := by
  cases l with
  | nil => simp [splitAtFirst] at h
  | cons x xs =>
    by_cases hp : p x
    · simp [splitAtFirst, hp] at h
    · simp only [splitAtFirst, hp] at h
      simp only [Bool.false_eq_true, if_false, Prod.mk.injEq, List.cons.injEq] at h
      exact ⟨xs, by rw [h.1.1], h.1.1 ▸ Bool.eq_false_iff.mpr hp⟩

/-- Facts about `splitAuthorityChars`: the host part never contains `@`, and
both parts draw their characters from the authority. -/
theorem splitAuthorityChars_facts (auth : List Char) :
    (∀ c ∈ (splitAuthorityChars auth).2, (c == '@') = false) ∧
    (∀ c ∈ (splitAuthorityChars auth).2, c ∈ auth) ∧
    (∀ ui, (splitAuthorityChars auth).1 = some ui → ∀ c ∈ ui, c ∈ auth) := by
  by_cases hat : auth.contains '@'
  · simp only [splitAuthorityChars, hat, if_true]
    unfold splitAtLast
    have hl := splitAtFirst_fst_false (fun c => c == '@') auth.reverse
    have hmem := splitAtFirst_fst_mem (fun c => c == '@') auth.reverse
    have hmem₂ := splitAtFirst_snd_mem (fun c => c == '@') auth.reverse
    match heq : splitAtFirst (fun c => c == '@') auth.reverse with
    | (revAfter, []) =>
      rw [heq] at hl hmem
      refine ⟨?_, ?_, ?_⟩
      · intro c hc
        exact hl c (List.mem_reverse.mp hc)
      · intro c hc
        exact List.mem_reverse.mp (hmem c (List.mem_reverse.mp hc))
      · intro ui hui c hc
        simp at hui
        subst hui
        simp at hc
    | (revAfter, a :: revBefore) =>
      rw [heq] at hl hmem hmem₂
      refine ⟨?_, ?_, ?_⟩
      · intro c hc
        exact hl c (List.mem_reverse.mp hc)
      · intro c hc
        exact List.mem_reverse.mp (hmem c (List.mem_reverse.mp hc))
      · intro ui hui c hc
        simp only [Option.some.injEq] at hui
        subst hui
        exact List.mem_reverse.mp
          (hmem₂ c (List.mem_cons_of_mem a (List.mem_reverse.mp hc)))
  · simp only [splitAuthorityChars, hat, if_false]
    refine ⟨?_, fun c hc => hc, fun ui hui => by simp at hui⟩
    intro c hc
    by_contra hcon
    have : c = '@' := by
      cases hb : (c == '@')
      · exact absurd hb hcon
      · exact beq_iff_eq.mp hb
    subst this
    exact hat (List.elem_eq_true_of_mem hc)

/-- Lowercasing a character list preserves host cleanliness. -/
theorem map_lower_clean (l : List Char)
    (h : ∀ c ∈ l, delimAuth c = false ∧ (c == '@') = false) :
    ∀ c ∈ l.map asciiToLower, delimAuth c = false ∧ (c == '@') = false := by
  intro c hc
  obtain ⟨c₀, hc₀, rfl⟩ := List.mem_map.mp hc
  exact ⟨asciiToLower_delimAuth c₀ (h c₀ hc₀).1, asciiToLower_at c₀ (h c₀ hc₀).2⟩

/-- A `mkURL` built from clean components is well-formed. -/
theorem mkURL_wf (schemeChars : List Char) (userinfo : Option (List Char))
    (hostChars pathChars : List Char) (query fragment : Option String)
    (hscheme : isValidSchemeChars schemeChars = true)
    (hhost_ne : hostChars ≠ [])
    (hhost : ∀ c ∈ hostChars, delimAuth c = false ∧ (c == '@') = false)
    (hui : ∀ ui, userinfo = some ui → ∀ c ∈ ui, delimAuth c = false)
    (hpath : pathChars = [] ∨ ∃ rest, pathChars = '/' :: rest)
    (hpathclean : ∀ c ∈ pathChars, delimPath c = false)
    (hq : ∀ q, query = some q → ∀ c ∈ q.data, (c == '#') = false) :
    URLWf (mkURL schemeChars userinfo hostChars pathChars query fragment) := by
  constructor
  case scheme_valid =>
    show isValidSchemeChars (strLower (String.mk schemeChars)).data = true
    rw [strLower_data]
    exact isValidSchemeChars_map_lower schemeChars hscheme
  case scheme_lower =>
    exact strLower_idem (String.mk schemeChars)
  case host_lower =>
    exact strLower_idem (String.mk hostChars)
  case host_ne =>
    show (strLower (String.mk hostChars)).data ≠ []
    rw [strLower_data]
    simpa using hhost_ne
  case host_clean =>
    show ∀ c ∈ (strLower (String.mk hostChars)).data, _
    rw [strLower_data]
    exact map_lower_clean hostChars hhost
  case userinfo_clean =>
    intro ui h
    show ∀ c ∈ ui.data, delimAuth c = false
    cases userinfo with
    | none => simp [mkURL] at h
    | some ui₀ =>
      simp only [mkURL, Option.map_some', Option.some.injEq] at h
      subst h
      exact hui ui₀ rfl
  case path_slash =>
    rcases hpath with rfl | ⟨rest, rfl⟩
    · exact ⟨[], by simp [mkURL]⟩
    · exact ⟨rest, by simp [mkURL]⟩
  case path_clean =>
    rcases hpath with rfl | ⟨rest, rfl⟩
    · intro c hc
      have hd : (mkURL schemeChars userinfo hostChars [] query fragment).pathname.data
          = ['/'] := rfl
      rw [hd] at hc
      have : c = '/' := by simpa using hc
      subst this
      rfl
    · intro c hc
      simp only [mkURL] at hc
      apply hpathclean
      simpa using hc
  case query_clean =>
    intro q hquery
    exact hq q hquery

/-- Components produced by the stages of `parseURLChars` yield a well-formed record. -/
theorem parse_components_wf (afterScheme schemeChars authChars rest₁ pathChars : List Char)
    (userinfo : Option (List Char)) (hostChars : List Char) (rest₂ : List Char)
    (hvalid : isValidSchemeChars schemeChars = true)
    (heqAuth : splitAtFirst delimAuth afterScheme = (authChars, rest₁))
    (heqUH : splitAuthorityChars authChars = (userinfo, hostChars))
    (hhost : ¬ hostChars = [])
    (heqPath : splitAtFirst delimPath rest₁ = (pathChars, rest₂))
    (query fragment : Option String)
    (hq : ∀ q, query = some q → ∀ c ∈ q.data, (c == '#') = false) :
    URLWf (mkURL schemeChars userinfo hostChars pathChars query fragment) := by
  have hauthF := splitAtFirst_fst_false delimAuth afterScheme
  rw [heqAuth] at hauthF
  have hfacts := splitAuthorityChars_facts authChars
  rw [heqUH] at hfacts
  have hostClean : ∀ c ∈ hostChars, delimAuth c = false ∧ (c == '@') = false :=
    fun c hc => ⟨hauthF c (hfacts.2.1 c hc), hfacts.1 c hc⟩
  have uiClean : ∀ ui, userinfo = some ui → ∀ c ∈ ui, delimAuth c = false := by
    intro ui hui c hc
    exact hauthF c (hfacts.2.2 ui hui c hc)
  have pathClean : ∀ c ∈ pathChars, delimPath c = false := by
    have := splitAtFirst_fst_false delimPath rest₁
    rw [heqPath] at this
    exact this
  have pathSlash : pathChars = [] ∨ ∃ rest, pathChars = '/' :: rest := by
    cases hp : pathChars with
    | nil => exact Or.inl rfl
    | cons c cs =>
      right
      obtain ⟨t, ht, hpc⟩ :=
        splitAtFirst_fst_cons delimPath rest₁ c cs rest₂ (by rw [← hp]; exact heqPath)
      have hsnd := splitAtFirst_snd_head delimAuth afterScheme
      rw [heqAuth] at hsnd
      have hda : delimAuth c = true := hsnd c t ht
      have hflat : (c == '?') = false ∧ (c == '#') = false := by
        have hor : ((c == '?') || (c == '#')) = false := hpc
        exact ⟨(Bool.or_eq_false_iff.mp hor).1, (Bool.or_eq_false_iff.mp hor).2⟩
      have hslash : c = '/' := by
        have hda' : ((c == '/' || c == '?') || c == '#') = true := hda
        rw [hflat.1, hflat.2] at hda'
        simp only [Bool.or_false] at hda'
        exact beq_iff_eq.mp hda'
      refine ⟨cs, ?_⟩
      rw [hslash]
  exact mkURL_wf schemeChars userinfo hostChars pathChars query fragment
    hvalid hhost hostClean uiClean pathSlash pathClean hq

/-- Every record produced by `parseURL` is well-formed. -/
theorem parseURL_wf (s : String) (u : URLRecord) (h : parseURL s = some u) : URLWf u := by
  unfold parseURL parseURLChars at h
  split at h
  case _ schemeChars afterScheme heq =>
    unfold parseAfterScheme at h
    split at h
    case isTrue hvalid =>
      split at h
      case _ authChars rest₁ heqAuth =>
        split at h
        case _ userinfo hostChars heqUH =>
          split at h
          case isTrue hhost => exact absurd h (by simp)
          case isFalse hhost =>
            unfold parsePathQF at h
            split at h
            case _ pathChars rest₂ heqPath =>
              unfold parseTail at h
              split at h
              case _ hrest =>
                have := Option.some.inj h
                subst this
                exact parse_components_wf afterScheme schemeChars authChars rest₁
                  pathChars userinfo hostChars [] hvalid heqAuth heqUH hhost heqPath
                  none none (by intro q hq; simp at hq)
              case _ y qs =>
                split at h
                case _ qChars fs heqQ =>
                  have := Option.some.inj h
                  subst this
                  refine parse_components_wf afterScheme schemeChars authChars rest₁
                    pathChars userinfo hostChars ('?' :: qs) hvalid heqAuth heqUH hhost
                    heqPath _ _ ?_
                  intro q hq c hc
                  have hqF := splitAtFirst_fst_false (fun c => c == '#') qs
                  rw [heqQ] at hqF
                  have : q = String.mk qChars := (Option.some.inj hq).symm
                  subst this
                  exact hqF c hc
                case _ qChars other heqQ hne =>
                  have := Option.some.inj h
                  subst this
                  refine parse_components_wf afterScheme schemeChars authChars rest₁
                    pathChars userinfo hostChars ('?' :: qs) hvalid heqAuth heqUH hhost
                    heqPath _ _ ?_
                  intro q hq c hc
                  have hqF := splitAtFirst_fst_false (fun c => c == '#') qs
                  rw [hne] at hqF
                  have : q = String.mk qChars := (Option.some.inj hq).symm
                  subst this
                  exact hqF c hc
              case _ y fs =>
                have := Option.some.inj h
                subst this
                exact parse_components_wf afterScheme schemeChars authChars rest₁
                  pathChars userinfo hostChars ('#' :: fs) hvalid heqAuth heqUH hhost heqPath
                  none _ (by intro q hq; simp at hq)
              case _ hrest h1 h2 h3 => exact absurd h (by simp)
    case isFalse hvalid => exact absurd h (by simp)
  case _ x hne => exact absurd h (by simp)

/-- A list of characters all different from `d` does not contain `d`. -/
theorem contains_false_of_clean (l : List Char) (d : Char)
    (h : ∀ c ∈ l, (c == d) = false) : l.contains d = false := by
  cases hx : l.contains d
  · rfl
  · exfalso
    have hm : d ∈ l := List.mem_of_elem_eq_true hx
    have := h d hm
    simp at this

/-- Computes `splitAuthorityChars` on a serialized authority whose host part is
free of `@`. -/
theorem splitAuthorityChars_build (userinfo : Option (List Char)) (hostChars : List Char)
    (hhost : ∀ c ∈ hostChars, (c == '@') = false) :
    splitAuthorityChars (authListOf userinfo hostChars) = (userinfo, hostChars) := by
  unfold authListOf
  cases userinfo with
  | none =>
    have hcon := contains_false_of_clean hostChars '@' hhost
    simp [splitAuthorityChars, hcon]
    intro hm
    have := hhost '@' hm
    simp at this
  | some ui =>
    have hmem : '@' ∈ ui ++ '@' :: hostChars :=
      List.mem_append_right ui (List.mem_cons_self '@' hostChars)
    have hcon : (ui ++ '@' :: hostChars).contains '@' = true :=
      List.elem_eq_true_of_mem hmem
    simp only [splitAuthorityChars, hcon, if_true]
    unfold splitAtLast
    have hrev : (ui ++ '@' :: hostChars).reverse = hostChars.reverse ++ '@' :: ui.reverse := by
      rw [List.reverse_append, List.reverse_cons, List.append_assoc]
      simp
    have hsplit : splitAtFirst (fun c => c == '@') (hostChars.reverse ++ '@' :: ui.reverse)
        = (hostChars.reverse, '@' :: ui.reverse) := by
      apply splitAtFirst_append_cons
      · rfl
      · intro x hx
        exact hhost x (List.mem_reverse.mp hx)
    rw [hrev, hsplit]
    simp

/-- Computes `parseURLChars` on a list with an explicit scheme prefix. -/
theorem parseURLChars_build (schemeChars rest : List Char)
    (hns : ∀ c ∈ schemeChars, (c == ':') = false) :
    parseURLChars (schemeChars ++ ':' :: '/' :: '/' :: rest)
      = parseAfterScheme schemeChars rest := by
  unfold parseURLChars
  rw [splitAtFirst_append_cons (fun c => c == ':') ':' ('/' :: '/' :: rest) rfl
    schemeChars hns]
  rfl

/-- Computes `parseAfterScheme` from the equations of its stages. -/
theorem parseAfterScheme_eq (schemeChars afterScheme authChars rest₁ : List Char)
    (userinfo : Option (List Char)) (hostChars : List Char)
    (hvalid : isValidSchemeChars schemeChars = true)
    (heqAuth : splitAtFirst delimAuth afterScheme = (authChars, rest₁))
    (heqUH : splitAuthorityChars authChars = (userinfo, hostChars))
    (hne : hostChars ≠ []) :
    parseAfterScheme schemeChars afterScheme
      = parsePathQF schemeChars userinfo hostChars rest₁ := by
  unfold parseAfterScheme
  simp only [hvalid, if_true, heqAuth, heqUH, hne, if_false, if_neg, not_false_iff]

/-- Evaluates `parseTail` on an empty remainder. -/
theorem parseTail_nil (schemeChars : List Char) (userinfo : Option (List Char))
    (hostChars pathChars : List Char) :
    parseTail schemeChars userinfo hostChars pathChars []
      = some (mkURL schemeChars userinfo hostChars pathChars none none) := rfl

/-- Evaluates `parseTail` on a bare fragment remainder. -/
theorem parseTail_frag (schemeChars : List Char) (userinfo : Option (List Char))
    (hostChars pathChars fs : List Char) :
    parseTail schemeChars userinfo hostChars pathChars ('#' :: fs)
      = some (mkURL schemeChars userinfo hostChars pathChars none
          (some (String.mk fs))) := rfl

/-- Evaluates `parseTail` on a query remainder without a fragment. -/
theorem parseTail_query (schemeChars : List Char) (userinfo : Option (List Char))
    (hostChars pathChars qs qChars : List Char)
    (h : splitAtFirst (fun c => c == '#') qs = (qChars, [])) :
    parseTail schemeChars userinfo hostChars pathChars ('?' :: qs)
      = some (mkURL schemeChars userinfo hostChars pathChars
          (some (String.mk qChars)) none) := by
  unfold parseTail
  simp only [h]

/-- Evaluates `parseTail` on a query remainder followed by a fragment. -/
theorem parseTail_query_frag (schemeChars : List Char) (userinfo : Option (List Char))
    (hostChars pathChars qs qChars fs : List Char)
    (h : splitAtFirst (fun c => c == '#') qs = (qChars, '#' :: fs)) :
    parseTail schemeChars userinfo hostChars pathChars ('?' :: qs)
      = some (mkURL schemeChars userinfo hostChars pathChars
          (some (String.mk qChars)) (some (String.mk fs))) := by
  unfold parseTail
  simp only [h]

/-- Runs the whole pipeline after the scheme on a serialized
authority-path-query-fragment remainder. -/
theorem parseAfterScheme_full (schemeChars : List Char) (uInfo : Option (List Char))
    (hostChars : List Char) (pathname : String) (QF : List Char)
    (hsv : isValidSchemeChars schemeChars = true)
    (hhne : hostChars ≠ [])
    (hhcl : ∀ c ∈ hostChars, delimAuth c = false ∧ (c == '@') = false)
    (huic : ∀ ui, uInfo = some ui → ∀ c ∈ ui, delimAuth c = false)
    (hps : ∃ t, pathname.data = '/' :: t)
    (hpcl : ∀ c ∈ pathname.data, delimPath c = false)
    (hQF : QF = [] ∨ ∃ c t, QF = c :: t ∧ delimPath c = true) :
    parseAfterScheme schemeChars (authListOf uInfo hostChars ++ (pathname.data ++ QF))
      = parseTail schemeChars uInfo hostChars pathname.data QF := by
  have hhostAt : ∀ c ∈ hostChars, (c == '@') = false := fun c hc => (hhcl c hc).2
  have hauthClean : ∀ c ∈ authListOf uInfo hostChars, delimAuth c = false := by
    cases uInfo with
    | none => exact fun c hc => (hhcl c hc).1
    | some ui =>
      intro c hc
      have hc' : c ∈ ui ++ '@' :: hostChars := hc
      rcases List.mem_append.mp hc' with hm | hm
      · exact huic ui rfl c hm
      · rcases List.mem_cons.mp hm with rfl | hm
        · rfl
        · exact (hhcl c hm).1
  obtain ⟨prest, hps'⟩ := hps
  have heqAuth : splitAtFirst delimAuth (authListOf uInfo hostChars ++ (pathname.data ++ QF))
      = (authListOf uInfo hostChars, pathname.data ++ QF) := by
    rw [hps', List.cons_append]
    exact splitAtFirst_append_cons delimAuth '/' (prest ++ QF) rfl _ hauthClean
  have heqUH : splitAuthorityChars (authListOf uInfo hostChars) = (uInfo, hostChars) :=
    splitAuthorityChars_build uInfo hostChars hhostAt
  have heqPath : splitAtFirst delimPath (pathname.data ++ QF) = (pathname.data, QF) := by
    rcases hQF with rfl | ⟨c, t, rfl, hc⟩
    · rw [List.append_nil]
      exact splitAtFirst_of_forall_false _ _ hpcl
    · exact splitAtFirst_append_cons delimPath c t hc _ hpcl
  rw [parseAfterScheme_eq schemeChars _ _ _ _ _ hsv heqAuth heqUH hhne]
  unfold parsePathQF
  simp only [heqPath]

/-- A `mkURL` rebuilt from the data of already-normalized components is the
original record. -/
theorem mkURL_id (scheme : String) (userinfo : Option String) (host pathname : String)
    (query fragment : Option String)
    (hs : strLower scheme = scheme) (hh : strLower host = host)
    (hp : pathname.data ≠ []) :
    mkURL scheme.data (userinfo.map String.data) host.data pathname.data query fragment
      = ⟨scheme, userinfo, host, pathname, query, fragment⟩ := by
  unfold mkURL
  rw [if_neg hp]
  have huio : (userinfo.map String.data).map String.mk = userinfo := by
    cases userinfo with
    | none => rfl
    | some ui => simp [mk_data]
  rw [mk_data scheme, mk_data host, mk_data pathname, hs, hh, huio]

/-- Re-parsing the serialization of a well-formed URL record recovers the record. -/
theorem parseURL_toString (u : URLRecord) (hw : URLWf u) :
    parseURL (urlToString u) = some u := by
  obtain ⟨scheme, userinfo, host, pathname, query, fragment⟩ := u
  have hsv : isValidSchemeChars scheme.data = true := hw.scheme_valid
  have hnc := isValidSchemeChars_no_colon scheme.data hsv
  have hD : (urlToString ⟨scheme, userinfo, host, pathname, query, fragment⟩).data
      = scheme.data ++ ':' :: '/' :: '/' ::
        (authListOf (userinfo.map String.data) host.data ++
          (pathname.data ++ (queryChars query ++ fragmentChars fragment))) := by
    have hc1 : ("://" : String).data = [':', '/', '/'] := rfl
    have hc2 : ("@" : String).data = ['@'] := rfl
    have hc3 : ("?" : String).data = ['?'] := rfl
    have hc4 : ("#" : String).data = ['#'] := rfl
    have hc5 : ("" : String).data = [] := rfl
    cases userinfo <;> cases query <;> cases fragment <;>
      simp [urlToString, authListOf, queryChars, fragmentChars, String.data_append,
        hc1, hc2, hc3, hc4, hc5, List.append_assoc]
  have huic : ∀ ui, userinfo.map String.data = some ui → ∀ c ∈ ui, delimAuth c = false := by
    intro ui hui c hc
    cases userinfo with
    | none => simp at hui
    | some ui₀ =>
      simp only [Option.map_some', Option.some.injEq] at hui
      subst hui
      exact hw.userinfo_clean ui₀ rfl c hc
  have hQF : queryChars query ++ fragmentChars fragment = [] ∨
      ∃ c t, queryChars query ++ fragmentChars fragment = c :: t ∧ delimPath c = true := by
    cases query with
    | some q =>
      exact Or.inr ⟨'?', q.data ++ fragmentChars fragment, by simp [queryChars], rfl⟩
    | none =>
      cases fragment with
      | none => exact Or.inl rfl
      | some f => exact Or.inr ⟨'#', f.data, by simp [queryChars, fragmentChars], rfl⟩
  unfold parseURL
  rw [hD, parseURLChars_build scheme.data _ hnc,
    parseAfterScheme_full scheme.data (userinfo.map String.data) host.data pathname _
      hsv hw.host_ne hw.host_clean huic hw.path_slash hw.path_clean hQF]
  have hpne : pathname.data ≠ [] := by
    obtain ⟨t, ht⟩ := hw.path_slash
    rw [ht]
    simp
  have hid := mkURL_id scheme userinfo host pathname
  cases query with
  | none =>
    cases fragment with
    | none =>
      show parseTail scheme.data (userinfo.map String.data) host.data pathname.data [] = _
      rw [parseTail_nil]
      exact congrArg some (hid none none hw.scheme_lower hw.host_lower hpne)
    | some f =>
      show parseTail scheme.data (userinfo.map String.data) host.data pathname.data
        ('#' :: f.data) = _
      rw [parseTail_frag, mk_data f]
      exact congrArg some (hid none (some f) hw.scheme_lower hw.host_lower hpne)
  | some q =>
    have hqcl : ∀ c ∈ q.data, (c == '#') = false := hw.query_clean q rfl
    cases fragment with
    | none =>
      show parseTail scheme.data (userinfo.map String.data) host.data pathname.data
        ('?' :: (q.data ++ [])) = _
      rw [List.append_nil,
        parseTail_query scheme.data _ _ _ q.data q.data
          (splitAtFirst_of_forall_false _ _ hqcl),
        mk_data q]
      exact congrArg some (hid (some q) none hw.scheme_lower hw.host_lower hpne)
    | some f =>
      show parseTail scheme.data (userinfo.map String.data) host.data pathname.data
        ('?' :: (q.data ++ '#' :: f.data)) = _
      rw [parseTail_query_frag scheme.data _ _ _ _ q.data f.data
          (splitAtFirst_append_cons (fun c => c == '#') '#' f.data rfl q.data hqcl),
        mk_data q, mk_data f]
      exact congrArg some (hid (some q) (some f) hw.scheme_lower hw.host_lower hpne)

/-- A `string | null` value is non-falsy exactly when it is a nonempty string. -/
theorem jsFalsy_false_iff (o : Option String) :
    jsFalsy o = false ↔ ∃ x, o = some x ∧ x ≠ "" := by
  cases o with
  | none => simp [jsFalsy]
  | some s =>
    simp only [jsFalsy, Option.some.injEq]
    constructor
    · intro h
      exact ⟨s, rfl, beq_eq_false_iff_ne.mp h⟩
    · rintro ⟨x, rfl, hx⟩
      exact beq_eq_false_iff_ne.mpr hx

/-- Characterizes success of the vendor recognizer: the URL parses, is `https`
on the fixed vendor host with a `/ecfg`-prefixed path and a nonempty first
segment, carries a non-falsy `token` parameter, and the connection fields are
built from the segment and token with version `"1"`. -/
theorem vercel_spec (s : String) (c : Connection) :
    parseVercelConnectionString s = some c ↔
      ∃ u, parseURL s = some u ∧ u.host = "edge-config.vercel.com" ∧ u.scheme = "https" ∧
        "/ecfg".data.isPrefixOf u.pathname.data = true ∧
        firstPathSegment u.pathname ≠ "" ∧
        ∃ t, searchParamsGet u "token" = some t ∧ t ≠ "" ∧
          c = ⟨ConnectionType.vercel,
                "https://edge-config.vercel.com/" ++ firstPathSegment u.pathname,
                firstPathSegment u.pathname, t, "1"⟩ := by
  constructor
  · intro h
    unfold parseVercelConnectionString at h
    split at h
    next => cases h
    next url hu =>
      split at h
      next => cases h
      next hhost =>
        split at h
        next => cases h
        next hscheme =>
          split at h
          next => cases h
          next hpre =>
            split at h
            next => cases h
            next hseg =>
              split at h
              next => cases h
              next htok =>
                obtain ⟨t, htokeq, htne⟩ := (jsFalsy_false_iff _).mp
                  (Bool.eq_false_iff.mpr htok)
                refine ⟨url, hu, ?_, ?_, ?_, ?_, t, htokeq, htne, ?_⟩
                · have hb : (url.host != "edge-config.vercel.com") = false :=
                    Bool.eq_false_iff.mpr hhost
                  simpa using hb
                · have hb : (url.scheme != "https") = false := Bool.eq_false_iff.mpr hscheme
                  simpa using hb
                · have hb : (!("/ecfg".data.isPrefixOf url.pathname.data)) = false :=
                    Bool.eq_false_iff.mpr hpre
                  simpa using hb
                · have hb : (firstPathSegment url.pathname == "") = false :=
                    Bool.eq_false_iff.mpr hseg
                  exact beq_eq_false_iff_ne.mp hb
                · have hc := (Option.some.inj h).symm
                  rw [hc, htokeq]
                  rfl
  · rintro ⟨u, hu', hhost, hscheme, hpre, hseg, t, htok, htne, rfl⟩
    unfold parseVercelConnectionString
    simp only [hu']
    have h1 : ¬((u.host != "edge-config.vercel.com") = true) := by simp [hhost]
    have h2 : ¬((u.scheme != "https") = true) := by simp [hscheme]
    have h3 : ¬((!("/ecfg".data.isPrefixOf u.pathname.data)) = true) := by simp [hpre]
    have h4 : ¬((firstPathSegment u.pathname == "") = true) := by
      simp [beq_eq_false_iff_ne.mpr hseg]
    have h5 : ¬(jsFalsy (searchParamsGet u "token") = true) := by
      rw [htok]
      simp [jsFalsy, beq_eq_false_iff_ne.mpr htne]
    rw [if_neg h1, if_neg h2, if_neg h3, if_neg h4, if_neg h5, htok]
    rfl

/-- Characterizes success of the external recognizer: the URL parses, the
resolved id and the `token` parameter are non-falsy, and the connection is
built from them with the query-stripped serialization as base URL. -/
theorem external_spec (s : String) (c : Connection) :
    parseExternalConnectionString s = some c ↔
      ∃ u, parseURL s = some u ∧
        ∃ i t, resolvedId u = some i ∧ searchParamsGet u "token" = some t ∧
          i ≠ "" ∧ t ≠ "" ∧
          c = ⟨ConnectionType.external, urlToString { u with query := none }, i, t,
                jsOrDefault (searchParamsGet u "version") "1"⟩ := by
  constructor
  · intro h
    unfold parseExternalConnectionString at h
    split at h
    next => cases h
    next url hu =>
      split at h
      next => cases h
      next hcond =>
        have hcond' : (jsFalsy (resolvedId url) || jsFalsy (searchParamsGet url "token"))
            = false := Bool.eq_false_iff.mpr hcond
        have hors := Bool.or_eq_false_iff.mp hcond'
        obtain ⟨i, hi, hine⟩ := (jsFalsy_false_iff _).mp hors.1
        obtain ⟨t, ht, htne⟩ := (jsFalsy_false_iff _).mp hors.2
        refine ⟨url, hu, i, t, hi, ht, hine, htne, ?_⟩
        have hc := (Option.some.inj h).symm
        rw [hc, hi, ht]
        rfl
  · rintro ⟨u, hu, i, t, hi, ht, hine, htne, rfl⟩
    unfold parseExternalConnectionString
    simp only [hu]
    have hcond : ¬((jsFalsy (resolvedId u) || jsFalsy (searchParamsGet u "token")) = true) := by
      rw [hi, ht]
      simp [jsFalsy, beq_eq_false_iff_ne.mpr hine, beq_eq_false_iff_ne.mpr htne]
    rw [if_neg hcond, hi, ht]
    rfl

/-- A vendor success short-circuits `parseConnectionString`. -/
theorem parseConn_vercel (s : String) (c : Connection)
    (h : parseVercelConnectionString s = some c) : parseConnectionString s = some c := by
  unfold parseConnectionString
  rw [h]

/-- A vendor failure makes `parseConnectionString` defer to the external recognizer. -/
theorem parseConn_external (s : String)
    (h : parseVercelConnectionString s = none) :
    parseConnectionString s = parseExternalConnectionString s := by
  unfold parseConnectionString
  rw [h]

/-- Characters of the value of a parsed `key=value` piece come from the piece. -/
theorem parsePair_snd_mem (piece : List Char) :
    ∀ c ∈ (parsePair piece).2.data, c ∈ piece := by
  unfold parsePair
  cases hsp : splitAtFirst (fun c => c == '=') piece with
  | mk k rest =>
    cases rest with
    | nil =>
      intro c hc
      have : (("" : String)).data = [] := rfl
      rw [this] at hc
      simp at hc
    | cons e v =>
      intro c hc
      have hsnd := splitAtFirst_snd_mem (fun c => c == '=') piece
      rw [hsp] at hsnd
      exact hsnd c (List.mem_cons_of_mem e hc)

/-- Values returned by `searchParamsGet` on a well-formed URL contain neither
`&` nor `#`. -/
theorem searchParams_value_clean (u : URLRecord) (hw : URLWf u) (k w : String)
    (h : searchParamsGet u k = some w) :
    ∀ c ∈ w.data, (c == '&') = false ∧ (c == '#') = false := by
  unfold searchParamsGet at h
  cases hq : u.query with
  | none =>
    rw [hq] at h
    cases h
  | some q =>
    rw [hq] at h
    obtain ⟨pair, hfind, hsnd⟩ := Option.map_eq_some'.mp h
    have hpairmem : pair ∈ parseQueryPairs q := List.mem_of_find?_eq_some hfind
    unfold parseQueryPairs at hpairmem
    obtain ⟨piece, hpfil, hppair⟩ := List.mem_map.mp hpairmem
    have hpiece : piece ∈ splitOnChar '&' q.data := List.mem_of_mem_filter hpfil
    intro c hc
    have hcpiece : c ∈ piece := by
      apply parsePair_snd_mem piece
      rw [hppair, hsnd]
      exact hc
    constructor
    · exact splitOnChar_mem_sep_false '&' q.data piece hpiece c hcpiece
    · exact hw.query_clean q hq c (splitOnChar_mem_subset '&' q.data piece hpiece c hcpiece)

/-- Members of a `takeWhile` are members of the list. -/
theorem mem_takeWhile_mem (p : Char → Bool) :
    ∀ l : List Char, ∀ c ∈ l.takeWhile p, c ∈ l := by
  intro l
  induction l with
  | nil => intro c hc; simp at hc
  | cons a as ih =>
    intro c hc
    by_cases hp : p a
    · rw [List.takeWhile_cons_of_pos hp] at hc
      rcases List.mem_cons.mp hc with rfl | hc
      · exact List.mem_cons_self c as
      · exact List.mem_cons_of_mem a (ih c hc)
    · rw [List.takeWhile_cons_of_neg hp] at hc
      simp at hc

/-- Data of the first path segment of a slash-led pathname: the longest
slash-free prefix of the remainder. -/
theorem firstPathSegment_data (pathname : String) (rest : List Char)
    (hps : pathname.data = '/' :: rest) :
    (firstPathSegment pathname).data = rest.takeWhile (fun c => !(c == '/')) := by
  unfold firstPathSegment
  rw [hps]
  have hsplit : splitOnChar '/' ('/' :: rest) = [] :: splitOnChar '/' rest := by
    simp [splitOnChar]
  obtain ⟨t, ht⟩ := splitOnChar_head '/' rest
  rw [hsplit, ht]
  rfl

/-- Characters of the first path segment come from the pathname. -/
theorem firstPathSegment_mem (pathname : String) (rest : List Char)
    (hps : pathname.data = '/' :: rest) :
    ∀ c ∈ (firstPathSegment pathname).data, c ∈ pathname.data := by
  intro c hc
  rw [firstPathSegment_data pathname rest hps] at hc
  rw [hps]
  exact List.mem_cons_of_mem '/' (mem_takeWhile_mem _ rest c hc)

/-- Members of a `takeWhile` satisfy the predicate. -/
theorem takeWhile_pred (p : Char → Bool) :
    ∀ l : List Char, ∀ c ∈ l.takeWhile p, p c = true := by
  intro l
  induction l with
  | nil => intro c hc; simp at hc
  | cons a as ih =>
    intro c hc
    by_cases hp : p a
    · rw [List.takeWhile_cons_of_pos hp] at hc
      rcases List.mem_cons.mp hc with rfl | hc
      · exact hp
      · exact ih c hc
    · rw [List.takeWhile_cons_of_neg hp] at hc
      simp at hc

/-- The first path segment contains no slash. -/
theorem firstPathSegment_no_slash (pathname : String) (rest : List Char)
    (hps : pathname.data = '/' :: rest) :
    ∀ c ∈ (firstPathSegment pathname).data, (c == '/') = false := by
  intro c hc
  rw [firstPathSegment_data pathname rest hps] at hc
  have := takeWhile_pred (fun c => !(c == '/')) rest c hc
  simpa using this

/-- `isPrefixOf` ignores a `takeWhile` whose predicate holds on the prefix. -/
theorem isPrefixOf_takeWhile (q : Char → Bool) :
    ∀ (p l : List Char), (∀ c ∈ p, q c = true) →
      p.isPrefixOf (l.takeWhile q) = p.isPrefixOf l := by
  intro p
  induction p with
  | nil => intro l _; simp [List.isPrefixOf]
  | cons a as ih =>
    intro l hp
    cases l with
    | nil => simp
    | cons b bs =>
      by_cases hq : q b
      · rw [List.takeWhile_cons_of_pos hq]
        show (a == b && as.isPrefixOf (bs.takeWhile q)) = (a == b && as.isPrefixOf bs)
        by_cases hab : a = b
        · rw [ih bs fun c hc => hp c (List.mem_cons_of_mem a hc)]
        · have : (a == b) = false := beq_eq_false_iff_ne.mpr hab
          rw [this]
          simp
      · rw [List.takeWhile_cons_of_neg hq]
        show (List.isPrefixOf (a :: as) []) = (a == b && as.isPrefixOf bs)
        have hab : (a == b) = false := by
          by_contra hcon
          have : a = b := by
            cases hx : (a == b)
            · exact absurd hx hcon
            · exact beq_iff_eq.mp hx
          subst this
          exact hq (hp a (List.mem_cons_self a as))
        rw [hab]
        simp [List.isPrefixOf]

/-- A slash-led prefix check on the pathname is a prefix check on the first
path segment, for slash-free prefixes. -/
theorem prefix_of_firstSeg (pathname : String) (rest : List Char)
    (hps : pathname.data = '/' :: rest)
    (p : List Char) (hp : ∀ c ∈ p, (c == '/') = false) :
    ('/' :: p).isPrefixOf pathname.data
      = p.isPrefixOf (firstPathSegment pathname).data := by
  rw [hps, firstPathSegment_data pathname rest hps]
  show (('/' : Char) == '/' && p.isPrefixOf rest) = _
  rw [isPrefixOf_takeWhile (fun c => !(c == '/')) p rest fun c hc => by simp [hp c hc]]
  simp

/-- A string is empty exactly when its data is the empty list. -/
theorem str_empty_iff (s : String) : s = "" ↔ s.data = [] := by
  constructor
  · rintro rfl
    rfl
  · intro h
    apply strExt
    rw [h]

/-- The id resolution takes the first path segment when the `id` parameter is
falsy or the pathname starts with `/ecfg_`. -/
theorem resolvedId_override (u : URLRecord)
    (h : jsFalsy (searchParamsGet u "id") = true ∨
      "/ecfg_".data.isPrefixOf u.pathname.data = true) :
    resolvedId u = jsNonEmpty (firstPathSegment u.pathname) := by
  unfold resolvedId
  rw [if_pos]
  rcases h with h | h
  · rw [h]
    simp
  · rw [h]
    simp

/-- The id resolution keeps the `id` parameter when it is non-falsy and the
pathname does not start with `/ecfg_`. -/
theorem resolvedId_query (u : URLRecord)
    (h1 : jsFalsy (searchParamsGet u "id") = false)
    (h2 : "/ecfg_".data.isPrefixOf u.pathname.data = false) :
    resolvedId u = searchParamsGet u "id" := by
  unfold resolvedId
  rw [if_neg]
  rw [h1, h2]
  simp

/-- `jsNonEmpty` of a nonempty string is `some` of it. -/
theorem jsNonEmpty_some (s : String) (h : s ≠ "") : jsNonEmpty s = some s := by
  unfold jsNonEmpty
  rw [if_neg]
  rw [beq_eq_false_iff_ne.mpr h]
  simp

/-- `jsNonEmpty` of the empty string is `none`. -/
theorem jsNonEmpty_none : jsNonEmpty "" = none := rfl

/-- The external recognizer fails when the resolved id or the token is falsy. -/
theorem external_none (s : String) (u : URLRecord) (hu : parseURL s = some u)
    (h : jsFalsy (resolvedId u) = true ∨ jsFalsy (searchParamsGet u "token") = true) :
    parseExternalConnectionString s = none := by
  unfold parseExternalConnectionString
  simp only [hu]
  rw [if_pos]
  rcases h with h | h
  · rw [h]
    simp
  · rw [h]
    simp

/-- The vendor recognizer cannot fail while all its conditions hold. -/
theorem vercel_none_elim (s : String) (u : URLRecord) (hu : parseURL s = some u)
    (h : parseVercelConnectionString s = none) :
    ¬(u.host = "edge-config.vercel.com" ∧ u.scheme = "https" ∧
      "/ecfg".data.isPrefixOf u.pathname.data = true ∧
      firstPathSegment u.pathname ≠ "" ∧
      ∃ t, searchParamsGet u "token" = some t ∧ t ≠ "") := by
  rintro ⟨hh, hs, hp, hg, t, ht, htn⟩
  have hsome := (vercel_spec s
    ⟨ConnectionType.vercel, "https://edge-config.vercel.com/" ++ firstPathSegment u.pathname,
      firstPathSegment u.pathname, t, "1"⟩).mpr ⟨u, hu, hh, hs, hp, hg, t, ht, htn, rfl⟩
  rw [h] at hsome
  cases hsome

/-- Changing the query of a well-formed record preserves well-formedness as
long as the new query is clean. -/
theorem URLWf_set_query (u : URLRecord) (hw : URLWf u) (q' : Option String)
    (hq' : ∀ q, q' = some q → ∀ c ∈ q.data, (c == '#') = false) :
    URLWf { u with query := q' } :=
  ⟨hw.scheme_valid, hw.scheme_lower, hw.host_lower, hw.host_ne, hw.host_clean,
    hw.userinfo_clean, hw.path_slash, hw.path_clean, hq'⟩

/-- The resolved id of a well-formed URL never contains `#`. -/
theorem resolvedId_clean (u : URLRecord) (hw : URLWf u) (i : String)
    (h : resolvedId u = some i) : ∀ c ∈ i.data, (c == '#') = false := by
  unfold resolvedId at h
  split at h
  · unfold jsNonEmpty at h
    split at h
    · cases h
    · have hi : i = firstPathSegment u.pathname := (Option.some.inj h).symm
      subst hi
      obtain ⟨rest, hps⟩ := hw.path_slash
      intro c hc
      have hmem := firstPathSegment_mem u.pathname rest hps c hc
      have := hw.path_clean c hmem
      have hor : ((c == '?') || (c == '#')) = false := this
      exact (Bool.or_eq_false_iff.mp hor).2
  · intro c hc
    exact (searchParams_value_clean u hw "id" i h c hc).2

/-- C1: `parseConnectionString` applies the vendor recognizer first and, when it
yields a `Connection`, returns it without consulting the external recognizer;
otherwise it returns the external recognizer's result.  A string accepted by
both recognizers yields the vendor result, whose type is `vercel`, never
`external`. -/
theorem claim_C1 (s : String) :
    (∀ c, parseVercelConnectionString s = some c → parseConnectionString s = some c) ∧
    (parseVercelConnectionString s = none →
      parseConnectionString s = parseExternalConnectionString s) ∧
    (∀ c c', parseVercelConnectionString s = some c →
      parseExternalConnectionString s = some c' →
      parseConnectionString s = some c ∧ c.type = ConnectionType.vercel) := by
  refine ⟨fun c h => parseConn_vercel s c h, fun h => parseConn_external s h, ?_⟩
  intro c c' h h'
  refine ⟨parseConn_vercel s c h, ?_⟩
  obtain ⟨u, hu, hh, hs, hp, hg, t, ht, htn, hc⟩ := (vercel_spec s c).mp h
  rw [hc]

/-- Witness for C1 at a connection string accepted by both recognizers. -/
theorem claim_C1_witness :
    parseConnectionString "https://edge-config.vercel.com/ecfg_a?id=x&token=t"
        = some ⟨ConnectionType.vercel, "https://edge-config.vercel.com/ecfg_a",
            "ecfg_a", "t", "1"⟩ ∧
      (⟨ConnectionType.vercel, "https://edge-config.vercel.com/ecfg_a",
          "ecfg_a", "t", "1"⟩ : Connection).type = ConnectionType.vercel :=
  (claim_C1 "https://edge-config.vercel.com/ecfg_a?id=x&token=t").2.2
    ⟨ConnectionType.vercel, "https://edge-config.vercel.com/ecfg_a", "ecfg_a", "t", "1"⟩
    ⟨ConnectionType.external, "https://edge-config.vercel.com/ecfg_a", "ecfg_a", "t", "1"⟩
    (by decide) (by decide)

/-- C4: `parseConnectionString` is a total function into `Option Connection`
(it never throws), and every string that does not parse as an absolute URL
yields `none`. -/
theorem claim_C4 (s : String) (h : parseURL s = none) : parseConnectionString s = none := by
  have h1 : parseVercelConnectionString s = none := by
    unfold parseVercelConnectionString
    rw [h]
  have h2 : parseExternalConnectionString s = none := by
    unfold parseExternalConnectionString
    rw [h]
  rw [parseConn_external s h1, h2]

/-- Witness for C4 at a string that is not an absolute URL. -/
theorem claim_C4_witness : parseConnectionString "not a url" = none :=
  claim_C4 "not a url" (by decide)

/-- C5: whenever `parseConnectionString` returns a `Connection`, its `id` and
`token` fields are nonempty strings. -/
theorem claim_C5 (s : String) (c : Connection) (h : parseConnectionString s = some c) :
    c.id ≠ "" ∧ c.token ≠ "" := by
  cases hv : parseVercelConnectionString s with
  | some c' =>
    have heq := parseConn_vercel s c' hv
    rw [heq] at h
    have hcc : c' = c := Option.some.inj h
    subst hcc
    obtain ⟨u, hu, hh, hs, hp, hg, t, ht, htn, hc⟩ := (vercel_spec s c').mp hv
    rw [hc]
    exact ⟨hg, htn⟩
  | none =>
    rw [parseConn_external s hv] at h
    obtain ⟨u, hu, i, t, hi, ht, hine, htne, hc⟩ := (external_spec s c).mp h
    rw [hc]
    exact ⟨hine, htne⟩

/-- Witness for C5 at a vendor connection string. -/
theorem claim_C5_witness :
    (⟨ConnectionType.vercel, "https://edge-config.vercel.com/ecfg_b", "ecfg_b",
        "tok", "1"⟩ : Connection).id ≠ "" ∧
      (⟨ConnectionType.vercel, "https://edge-config.vercel.com/ecfg_b", "ecfg_b",
          "tok", "1"⟩ : Connection).token ≠ "" :=
  claim_C5 "https://edge-config.vercel.com/ecfg_b?token=tok"
    ⟨ConnectionType.vercel, "https://edge-config.vercel.com/ecfg_b", "ecfg_b", "tok", "1"⟩
    (by decide)

/-- C2: the vendor recognizer succeeds exactly on parseable `https` URLs on the
vendor host whose path starts with the vendor prefix, with a nonempty first
segment and a nonempty `token` parameter; on success the connection carries the
vendor type, the origin-plus-id base URL, that id and token, and version `"1"`
regardless of any `version` parameter. -/
theorem claim_C2 (s : String) :
    ((∃ c, parseVercelConnectionString s = some c) ↔
      (∃ u, parseURL s = some u ∧ u.scheme = "https" ∧
        u.host = "edge-config.vercel.com" ∧
        "/ecfg".data.isPrefixOf u.pathname.data = true ∧
        firstPathSegment u.pathname ≠ "" ∧
        ∃ t, searchParamsGet u "token" = some t ∧ t ≠ "")) ∧
    (∀ c, parseVercelConnectionString s = some c →
      ∃ u t, parseURL s = some u ∧ searchParamsGet u "token" = some t ∧ t ≠ "" ∧
        c.type = ConnectionType.vercel ∧ c.id = firstPathSegment u.pathname ∧
        c.baseUrl = "https://edge-config.vercel.com/" ++ c.id ∧
        c.token = t ∧ c.version = "1") := by
  constructor
  · constructor
    · rintro ⟨c, h⟩
      obtain ⟨u, hu, hh, hs, hp, hg, t, ht, htn, hc⟩ := (vercel_spec s c).mp h
      exact ⟨u, hu, hs, hh, hp, hg, t, ht, htn⟩
    · rintro ⟨u, hu, hs, hh, hp, hg, t, ht, htn⟩
      exact ⟨_, (vercel_spec s _).mpr ⟨u, hu, hh, hs, hp, hg, t, ht, htn, rfl⟩⟩
  · intro c h
    obtain ⟨u, hu, hh, hs, hp, hg, t, ht, htn, hc⟩ := (vercel_spec s c).mp h
    subst hc
    exact ⟨u, t, hu, ht, htn, rfl, rfl, rfl, rfl, rfl⟩

/-- Witness for C2 at a vendor string with an explicit `version` parameter. -/
theorem claim_C2_witness :
    ∃ u t, parseURL "https://edge-config.vercel.com/ecfg_w?token=tk&version=9" = some u ∧
      searchParamsGet u "token" = some t ∧ t ≠ "" ∧
      (⟨ConnectionType.vercel, "https://edge-config.vercel.com/ecfg_w", "ecfg_w",
          "tk", "1"⟩ : Connection).type = ConnectionType.vercel ∧
      (⟨ConnectionType.vercel, "https://edge-config.vercel.com/ecfg_w", "ecfg_w",
          "tk", "1"⟩ : Connection).id = firstPathSegment u.pathname ∧
      (⟨ConnectionType.vercel, "https://edge-config.vercel.com/ecfg_w", "ecfg_w",
          "tk", "1"⟩ : Connection).baseUrl
        = "https://edge-config.vercel.com/" ++
            (⟨ConnectionType.vercel, "https://edge-config.vercel.com/ecfg_w", "ecfg_w",
                "tk", "1"⟩ : Connection).id ∧
      (⟨ConnectionType.vercel, "https://edge-config.vercel.com/ecfg_w", "ecfg_w",
          "tk", "1"⟩ : Connection).token = t ∧
      (⟨ConnectionType.vercel, "https://edge-config.vercel.com/ecfg_w", "ecfg_w",
          "tk", "1"⟩ : Connection).version = "1" :=
  (claim_C2 "https://edge-config.vercel.com/ecfg_w?token=tk&version=9").2
    ⟨ConnectionType.vercel, "https://edge-config.vercel.com/ecfg_w", "ecfg_w", "tk", "1"⟩
    (by decide)

/-- C3: in the external recognizer, the id comes from the `id` query parameter,
except that an absent parameter or a pathname starting with the reserved
`/ecfg_` prefix makes the first path segment the id, overriding the parameter. -/
theorem claim_C3 (s : String) (u : URLRecord) (c : Connection)
    (hu : parseURL s = some u) (hc : parseExternalConnectionString s = some c) :
    ((searchParamsGet u "id" = none ∨ "/ecfg_".data.isPrefixOf u.pathname.data = true) →
      c.id = firstPathSegment u.pathname) ∧
    (∀ i, searchParamsGet u "id" = some i → i ≠ "" →
      "/ecfg_".data.isPrefixOf u.pathname.data = false → c.id = i) := by
  obtain ⟨u', hu', i, t, hi, ht, hine, htne, hcc⟩ := (external_spec s c).mp hc
  have huu : u = u' := by
    rw [hu] at hu'
    exact Option.some.inj hu'
  subst huu
  constructor
  · intro hor
    have hov : resolvedId u = jsNonEmpty (firstPathSegment u.pathname) := by
      apply resolvedId_override u
      rcases hor with h | h
      · left
        rw [h]
        rfl
      · right
        exact h
    rw [hov] at hi
    unfold jsNonEmpty at hi
    split at hi
    · cases hi
    · rw [hcc]
      exact (Option.some.inj hi).symm
  · intro i₀ hq hne hpre
    have hqf : jsFalsy (searchParamsGet u "id") = false := by
      rw [hq]
      simp [jsFalsy, beq_eq_false_iff_ne.mpr hne]
    rw [resolvedId_query u hqf hpre, hq] at hi
    rw [hcc]
    exact (Option.some.inj hi).symm

/-- Witness for C3 at the spec's example: a path-shaped id overrides the query id. -/
theorem claim_C3_witness :
    (⟨ConnectionType.external, "https://example.com/ecfg_xyz", "ecfg_xyz", "tkn123",
        "1"⟩ : Connection).id = firstPathSegment "/ecfg_xyz" :=
  (claim_C3 "https://example.com/ecfg_xyz?id=ignored&token=tkn123"
    ⟨"https", none, "example.com", "/ecfg_xyz", some "id=ignored&token=tkn123", none⟩
    ⟨ConnectionType.external, "https://example.com/ecfg_xyz", "ecfg_xyz", "tkn123", "1"⟩
    (by decide) (by decide)).1 (Or.inr (by decide))

/-- C7: the external recognizer's version is the `version` query parameter, and
the literal `"1"` when that parameter is absent or empty. -/
theorem claim_C7 (s : String) (u : URLRecord) (c : Connection)
    (hu : parseURL s = some u) (hc : parseExternalConnectionString s = some c) :
    (∀ v, searchParamsGet u "version" = some v → v ≠ "" → c.version = v) ∧
    ((searchParamsGet u "version" = none ∨ searchParamsGet u "version" = some "") →
      c.version = "1") := by
  obtain ⟨u', hu', i, t, hi, ht, hine, htne, hcc⟩ := (external_spec s c).mp hc
  have huu : u = u' := by
    rw [hu] at hu'
    exact Option.some.inj hu'
  subst huu
  constructor
  · intro v hv hvne
    rw [hcc]
    show jsOrDefault (searchParamsGet u "version") "1" = v
    rw [hv]
    show (if (v == "") = true then "1" else v) = v
    rw [beq_eq_false_iff_ne.mpr hvne]
    simp
  · intro hor
    rw [hcc]
    show jsOrDefault (searchParamsGet u "version") "1" = "1"
    rcases hor with h | h <;> rw [h] <;> rfl

/-- Witness for C7 at a string with an explicit version parameter. -/
theorem claim_C7_witness :
    (⟨ConnectionType.external, "https://example.com/ecfg_xyz", "ecfg_xyz", "tkn123",
        "2"⟩ : Connection).version = "2" :=
  (claim_C7 "https://example.com/ecfg_xyz?token=tkn123&version=2"
    ⟨"https", none, "example.com", "/ecfg_xyz", some "token=tkn123&version=2", none⟩
    ⟨ConnectionType.external, "https://example.com/ecfg_xyz", "ecfg_xyz", "tkn123", "2"⟩
    (by decide) (by decide)).1 "2" (by decide) (by decide)

/-- C9: an empty `id` query parameter behaves like an absent one in the
external recognizer: the id falls back to the first path segment, and the
parse fails when that segment is also empty (token present and nonempty). -/
theorem claim_C9 (s : String) (u : URLRecord) (t : String)
    (hu : parseURL s = some u)
    (hid : searchParamsGet u "id" = some "")
    (htok : searchParamsGet u "token" = some t) (htne : t ≠ "") :
    (firstPathSegment u.pathname ≠ "" →
      ∃ c, parseExternalConnectionString s = some c ∧
        c.id = firstPathSegment u.pathname) ∧
    (firstPathSegment u.pathname = "" → parseExternalConnectionString s = none) := by
  have hov : resolvedId u = jsNonEmpty (firstPathSegment u.pathname) :=
    resolvedId_override u (Or.inl (by rw [hid]; rfl))
  constructor
  · intro hseg
    refine ⟨⟨ConnectionType.external, urlToString { u with query := none },
      firstPathSegment u.pathname, t, jsOrDefault (searchParamsGet u "version") "1"⟩,
      ?_, rfl⟩
    refine (external_spec s _).mpr ⟨u, hu, firstPathSegment u.pathname, t, ?_, htok,
      hseg, htne, rfl⟩
    rw [hov]
    exact jsNonEmpty_some _ hseg
  · intro hseg
    apply external_none s u hu
    left
    rw [hov, hseg]
    rfl

/-- Witness for C9 at a URL with an empty id parameter and a nonempty path. -/
theorem claim_C9_witness :
    ∃ c, parseExternalConnectionString "https://example.com/abc?id=&token=t" = some c ∧
      c.id = firstPathSegment "/abc" :=
  (claim_C9 "https://example.com/abc?id=&token=t"
    ⟨"https", none, "example.com", "/abc", some "id=&token=t", none⟩ "t"
    (by decide) (by decide) (by decide) (by decide)).1 (by decide)

/-- C10: the vendor prefix check is `/ecfg` while the external override needs
`/ecfg_`: an https URL on the vendor host whose first path segment starts with
`ecfg` but not `ecfg_`, with a nonempty token, parses as a vendor connection
with that segment as id, while the same path would not trigger the external
override. -/
theorem claim_C10 (s : String) (u : URLRecord) (t : String)
    (hu : parseURL s = some u)
    (hscheme : u.scheme = "https") (hhost : u.host = "edge-config.vercel.com")
    (hseg : "ecfg".data.isPrefixOf (firstPathSegment u.pathname).data = true)
    (hseg' : "ecfg_".data.isPrefixOf (firstPathSegment u.pathname).data = false)
    (htok : searchParamsGet u "token" = some t) (htne : t ≠ "") :
    parseConnectionString s
        = some ⟨ConnectionType.vercel,
            "https://edge-config.vercel.com/" ++ firstPathSegment u.pathname,
            firstPathSegment u.pathname, t, "1"⟩ ∧
      "/ecfg_".data.isPrefixOf u.pathname.data = false := by
  have hw := parseURL_wf s u hu
  obtain ⟨rest, hps⟩ := hw.path_slash
  have hecfg : ∀ c ∈ ("ecfg" : String).data, (c == '/') = false := by decide
  have hecfg' : ∀ c ∈ ("ecfg_" : String).data, (c == '/') = false := by decide
  have hpre : "/ecfg".data.isPrefixOf u.pathname.data = true := by
    have hps' := prefix_of_firstSeg u.pathname rest hps "ecfg".data hecfg
    have hdl : ("/ecfg" : String).data = '/' :: ("ecfg" : String).data := rfl
    rw [hdl, hps']
    exact hseg
  have hpre' : "/ecfg_".data.isPrefixOf u.pathname.data = false := by
    have hps' := prefix_of_firstSeg u.pathname rest hps "ecfg_".data hecfg'
    have hdl : ("/ecfg_" : String).data = '/' :: ("ecfg_" : String).data := rfl
    rw [hdl, hps']
    exact hseg'
  have hsegne : firstPathSegment u.pathname ≠ "" := by
    intro hcon
    rw [str_empty_iff] at hcon
    rw [hcon] at hseg
    exact absurd hseg (by decide)
  refine ⟨?_, hpre'⟩
  apply parseConn_vercel
  exact (vercel_spec s _).mpr ⟨u, hu, hhost, hscheme, hpre, hsegne, t, htok, htne, rfl⟩

/-- Witness for C10 at a vendor-host URL with first segment `ecfgtest`. -/
theorem claim_C10_witness :
    parseConnectionString "https://edge-config.vercel.com/ecfgtest?token=t"
        = some ⟨ConnectionType.vercel,
            "https://edge-config.vercel.com/" ++ firstPathSegment "/ecfgtest",
            firstPathSegment "/ecfgtest", "t", "1"⟩ ∧
      "/ecfg_".data.isPrefixOf ("/ecfgtest" : String).data = false :=
  claim_C10 "https://edge-config.vercel.com/ecfgtest?token=t"
    ⟨"https", none, "edge-config.vercel.com", "/ecfgtest", some "token=t", none⟩ "t"
    (by decide) (by decide) (by decide) (by decide) (by decide) (by decide) (by decide)

/-- Counterexample to C6 as stated: for a vendor connection string whose path
has extra segments, the base URL is the origin plus the first segment only, not
the input URL with its query stripped. -/
theorem claim_C6_counterexample :
    parseConnectionString "https://edge-config.vercel.com/ecfg_a/extra?token=t"
        = some ⟨ConnectionType.vercel, "https://edge-config.vercel.com/ecfg_a",
            "ecfg_a", "t", "1"⟩ ∧
      parseURL "https://edge-config.vercel.com/ecfg_a/extra?token=t"
        = some ⟨"https", none, "edge-config.vercel.com", "/ecfg_a/extra",
            some "token=t", none⟩ ∧
      (⟨ConnectionType.vercel, "https://edge-config.vercel.com/ecfg_a", "ecfg_a", "t",
          "1"⟩ : Connection).baseUrl
        ≠ urlToString ⟨"https", none, "edge-config.vercel.com", "/ecfg_a/extra",
            none, none⟩ :=
  ⟨by decide, by decide, by decide⟩

/-- C6 amended: the base URL of every returned `Connection` carries no query
component: it re-parses as a URL whose query is absent. -/
theorem claim_C6_amended (s : String) (c : Connection)
    (h : parseConnectionString s = some c) :
    ∃ u', parseURL c.baseUrl = some u' ∧ u'.query = none := by
  cases hv : parseVercelConnectionString s with
  | none =>
    rw [parseConn_external s hv] at h
    obtain ⟨u, hu, i, t, hi, ht, hine, htne, hcc⟩ := (external_spec s c).mp h
    have hw := parseURL_wf s u hu
    have hw' : URLWf { u with query := none } :=
      URLWf_set_query u hw none (by intro q hq; cases hq)
    refine ⟨{ u with query := none }, ?_, rfl⟩
    rw [hcc]
    exact parseURL_toString _ hw'
  | some c' =>
    have heq := parseConn_vercel s c' hv
    rw [heq] at h
    have hcc : c' = c := Option.some.inj h
    subst hcc
    obtain ⟨u, hu, hh, hs, hp, hg, t, ht, htn, hc⟩ := (vercel_spec s c').mp hv
    have hw := parseURL_wf s u hu
    obtain ⟨rest, hps⟩ := hw.path_slash
    refine ⟨⟨"https", none, "edge-config.vercel.com",
      String.mk ('/' :: (firstPathSegment u.pathname).data), none, none⟩, ?_, rfl⟩
    rw [hc]
    have hser : "https://edge-config.vercel.com/" ++ firstPathSegment u.pathname
        = urlToString ⟨"https", none, "edge-config.vercel.com",
            String.mk ('/' :: (firstPathSegment u.pathname).data), none, none⟩ := by
      apply strExt
      have hlit : ("https://edge-config.vercel.com/" : String).data
          = ("https" : String).data ++ (("://" : String).data ++
              (("edge-config.vercel.com" : String).data ++ ['/'])) := by decide
      simp only [urlToString, String.data_append, hlit]
      have hmk : (String.mk ('/' :: (firstPathSegment u.pathname).data)).data
          = '/' :: (firstPathSegment u.pathname).data := rfl
      have hemp : ("" : String).data = [] := rfl
      simp [hmk, hemp]
    rw [hser]
    apply parseURL_toString
    refine ⟨?_, ?_, ?_, ?_, ?_, ?_, ?_, ?_, ?_⟩
    · show isValidScheme "https" = true
      decide
    · show strLower "https" = "https"
      decide
    · show strLower "edge-config.vercel.com" = "edge-config.vercel.com"
      decide
    · show ("edge-config.vercel.com" : String).data ≠ []
      decide
    · show ∀ c ∈ ("edge-config.vercel.com" : String).data,
        delimAuth c = false ∧ (c == '@') = false
      decide
    · intro ui hui
      cases hui
    · exact ⟨(firstPathSegment u.pathname).data, rfl⟩
    · intro ch hch
      have hch' : ch ∈ '/' :: (firstPathSegment u.pathname).data := hch
      rcases List.mem_cons.mp hch' with rfl | hch'
      · rfl
      · exact hw.path_clean ch (firstPathSegment_mem u.pathname rest hps ch hch')
    · intro q hq
      cases hq

/-- Witness for the amended C6 at a concrete vendor connection string. -/
theorem claim_C6_amended_witness :
    ∃ u', parseURL (⟨ConnectionType.vercel, "https://edge-config.vercel.com/ecfg_a",
        "ecfg_a", "t", "1"⟩ : Connection).baseUrl = some u' ∧ u'.query = none :=
  claim_C6_amended "https://edge-config.vercel.com/ecfg_a/extra?token=t"
    ⟨ConnectionType.vercel, "https://edge-config.vercel.com/ecfg_a", "ecfg_a", "t", "1"⟩
    (by decide)

/-- `takeWhile` is the identity when every element satisfies the predicate. -/
theorem takeWhile_all (p : Char → Bool) :
    ∀ l : List Char, (∀ c ∈ l, p c = true) → l.takeWhile p = l := by
  intro l
  induction l with
  | nil => intro _; rfl
  | cons a as ih =>
    intro h
    rw [List.takeWhile_cons_of_pos (h a (List.mem_cons_self a as))]
    rw [ih fun c hc => h c (List.mem_cons_of_mem a hc)]

/-- The first path segment of `/` followed by a slash-free segment is that segment. -/
theorem firstPathSegment_mk (seg : String)
    (h : ∀ c ∈ seg.data, (c == '/') = false) :
    firstPathSegment (String.mk ('/' :: seg.data)) = seg := by
  apply strExt
  rw [firstPathSegment_data (String.mk ('/' :: seg.data)) seg.data rfl]
  exact takeWhile_all _ seg.data fun c hc => by simp [h c hc]

/-- `jsOrDefault` with default `"1"` never yields the empty string. -/
theorem jsOrDefault_ne_empty (o : Option String) : jsOrDefault o "1" ≠ "" := by
  cases o with
  | none => decide
  | some s =>
    show (if (s == "") = true then "1" else s) ≠ ""
    by_cases hs : (s == "") = true
    · rw [if_pos hs]
      decide
    · rw [if_neg hs]
      intro hcon
      rw [hcon] at hs
      exact hs rfl

/-- `jsOrDefault` keeps a nonempty value. -/
theorem jsOrDefault_some (v : String) (h : v ≠ "") : jsOrDefault (some v) "1" = v := by
  show (if (v == "") = true then "1" else v) = v
  rw [beq_eq_false_iff_ne.mpr h]
  simp

/-- Splits the reconstructed connection string into a base and a query part. -/
theorem recon_split (base i t ver : String) :
    base ++ "?id=" ++ i ++ "&token=" ++ t ++ "&version=" ++ ver
      = base ++ ("?" ++ ("id=" ++ i ++ "&token=" ++ t ++ "&version=" ++ ver)) := by
  apply strExt
  have h1 : ("?id=" : String).data = ("?" : String).data ++ ("id=" : String).data := by
    decide
  simp [String.data_append, h1]

/-- Serialization of a fragment-free record with a query is the query-free
serialization followed by `?` and the query. -/
theorem urlToString_query (v : URLRecord) (q : String) (hq : v.query = some q)
    (hf : v.fragment = none) :
    urlToString v = urlToString { v with query := none } ++ ("?" ++ q) := by
  obtain ⟨sc, ui, ho, pa, qq, fr⟩ := v
  simp only at hq hf
  subst hq
  subst hf
  apply strExt
  cases ui <;> simp [urlToString, String.data_append]

/-- Query pairs of the reconstructed query string. -/
theorem parseQueryPairs_reconstruct (i t v : String)
    (hi : ∀ c ∈ i.data, (c == '&') = false)
    (ht : ∀ c ∈ t.data, (c == '&') = false)
    (hv : ∀ c ∈ v.data, (c == '&') = false) :
    parseQueryPairs ("id=" ++ i ++ "&token=" ++ t ++ "&version=" ++ v)
      = [("id", i), ("token", t), ("version", v)] := by
  unfold parseQueryPairs
  have hdata : ("id=" ++ i ++ "&token=" ++ t ++ "&version=" ++ v).data
      = (['i', 'd', '='] ++ i.data) ++ '&' ::
          ((['t', 'o', 'k', 'e', 'n', '='] ++ t.data) ++ '&' ::
            (['v', 'e', 'r', 's', 'i', 'o', 'n', '='] ++ v.data)) := by
    have h1 : ("id=" : String).data = ['i', 'd', '='] := rfl
    have h2 : ("&token=" : String).data = '&' :: ['t', 'o', 'k', 'e', 'n', '='] := rfl
    have h3 : ("&version=" : String).data = '&' :: ['v', 'e', 'r', 's', 'i', 'o', 'n', '='] := rfl
    simp [String.data_append, h1, h2, h3]
  rw [hdata]
  have hA : ∀ c ∈ ['i', 'd', '='] ++ i.data, (c == '&') = false := by
    intro c hc
    rcases List.mem_append.mp hc with hc | hc
    · simp at hc
      rcases hc with rfl | rfl | rfl <;> rfl
    · exact hi c hc
  have hB : ∀ c ∈ ['t', 'o', 'k', 'e', 'n', '='] ++ t.data, (c == '&') = false := by
    intro c hc
    rcases List.mem_append.mp hc with hc | hc
    · simp at hc
      rcases hc with rfl | rfl | rfl | rfl | rfl | rfl <;> rfl
    · exact ht c hc
  have hC : ∀ c ∈ ['v', 'e', 'r', 's', 'i', 'o', 'n', '='] ++ v.data, (c == '&') = false := by
    intro c hc
    rcases List.mem_append.mp hc with hc | hc
    · simp at hc
      rcases hc with rfl | rfl | rfl | rfl | rfl | rfl | rfl | rfl <;> rfl
    · exact hv c hc
  rw [splitOnChar_append_sep '&' _ _ hA, splitOnChar_append_sep '&' _ _ hB,
    splitOnChar_nosep '&' _ hC]
  have hpA : parsePair (['i', 'd', '='] ++ i.data) = ("id", i) := by
    unfold parsePair
    have hsp : splitAtFirst (fun c => c == '=') (['i', 'd'] ++ '=' :: i.data)
        = (['i', 'd'], '=' :: i.data) := by
      apply splitAtFirst_append_cons
      · rfl
      · intro x hx
        simp at hx
        rcases hx with rfl | rfl <;> rfl
    have hform : ['i', 'd', '='] ++ i.data = ['i', 'd'] ++ '=' :: i.data := rfl
    rw [hform, hsp]
  have hpB : parsePair (['t', 'o', 'k', 'e', 'n', '='] ++ t.data) = ("token", t) := by
    unfold parsePair
    have hsp : splitAtFirst (fun c => c == '=')
        (['t', 'o', 'k', 'e', 'n'] ++ '=' :: t.data)
        = (['t', 'o', 'k', 'e', 'n'], '=' :: t.data) := by
      apply splitAtFirst_append_cons
      · rfl
      · intro x hx
        simp at hx
        rcases hx with rfl | rfl | rfl | rfl | rfl <;> rfl
    have hform : ['t', 'o', 'k', 'e', 'n', '='] ++ t.data
        = ['t', 'o', 'k', 'e', 'n'] ++ '=' :: t.data := rfl
    rw [hform, hsp]
  have hpC : parsePair (['v', 'e', 'r', 's', 'i', 'o', 'n', '='] ++ v.data)
      = ("version", v) := by
    unfold parsePair
    have hsp : splitAtFirst (fun c => c == '=')
        (['v', 'e', 'r', 's', 'i', 'o', 'n'] ++ '=' :: v.data)
        = (['v', 'e', 'r', 's', 'i', 'o', 'n'], '=' :: v.data) := by
      apply splitAtFirst_append_cons
      · rfl
      · intro x hx
        simp at hx
        rcases hx with rfl | rfl | rfl | rfl | rfl | rfl | rfl <;> rfl
    have hform : ['v', 'e', 'r', 's', 'i', 'o', 'n', '='] ++ v.data
        = ['v', 'e', 'r', 's', 'i', 'o', 'n'] ++ '=' :: v.data := rfl
    rw [hform, hsp]
  simp
  exact ⟨hpA, hpB, hpC⟩

/-- Reads the three parameters off a URL whose query parses to the
reconstructed pair list. -/
theorem searchParams_of_pairs (v : URLRecord) (q i t ver : String) (hq : v.query = some q)
    (hp : parseQueryPairs q = [("id", i), ("token", t), ("version", ver)]) :
    searchParamsGet v "id" = some i ∧ searchParamsGet v "token" = some t ∧
      searchParamsGet v "version" = some ver := by
  unfold searchParamsGet
  simp only [hq, hp]
  exact ⟨rfl, rfl, rfl⟩

/-- Serialization of the vendor base-URL record. -/
theorem vendor_url_eq (seg : String) :
    "https://edge-config.vercel.com/" ++ seg
      = urlToString ⟨"https", none, "edge-config.vercel.com",
          String.mk ('/' :: seg.data), none, none⟩ := by
  apply strExt
  have hlit : ("https://edge-config.vercel.com/" : String).data
      = ("https" : String).data ++ (("://" : String).data ++
          (("edge-config.vercel.com" : String).data ++ ['/'])) := by decide
  simp only [urlToString, String.data_append, hlit]
  have hmk : (String.mk ('/' :: seg.data)).data = '/' :: seg.data := rfl
  have hemp : ("" : String).data = [] := rfl
  simp [hmk, hemp]

/-- Well-formedness of the vendor record with a clean optional query. -/
theorem vendor_url_wf (seg : String) (q : Option String)
    (hcl : ∀ c ∈ seg.data, delimPath c = false)
    (hq : ∀ x, q = some x → ∀ c ∈ x.data, (c == '#') = false) :
    URLWf ⟨"https", none, "edge-config.vercel.com",
      String.mk ('/' :: seg.data), q, none⟩ := by
  refine ⟨?_, ?_, ?_, ?_, ?_, ?_, ?_, ?_, ?_⟩
  · show isValidScheme "https" = true
    decide
  · show strLower "https" = "https"
    decide
  · show strLower "edge-config.vercel.com" = "edge-config.vercel.com"
    decide
  · show ("edge-config.vercel.com" : String).data ≠ []
    decide
  · show ∀ c ∈ ("edge-config.vercel.com" : String).data,
      delimAuth c = false ∧ (c == '@') = false
    decide
  · intro ui hui
    cases hui
  · exact ⟨seg.data, rfl⟩
  · intro ch hch
    have hch' : ch ∈ '/' :: seg.data := hch
    rcases List.mem_cons.mp hch' with rfl | hch'
    · rfl
    · exact hcl ch hch'
  · exact hq

/-- The reconstructed query string is free of `#` when its variable pieces are. -/
theorem recon_query_hash_clean (i t v : String)
    (hi : ∀ ch ∈ i.data, (ch == '#') = false)
    (ht : ∀ ch ∈ t.data, (ch == '#') = false)
    (hv : ∀ ch ∈ v.data, (ch == '#') = false) :
    ∀ ch ∈ ("id=" ++ i ++ "&token=" ++ t ++ "&version=" ++ v).data,
      (ch == '#') = false := by
  intro ch hch
  simp only [String.data_append, List.append_assoc, List.mem_append] at hch
  rcases hch with h | h | h | h | h | h
  · exact (by decide : ∀ x ∈ ("id=" : String).data, (x == '#') = false) ch h
  · exact hi ch h
  · exact (by decide : ∀ x ∈ ("&token=" : String).data, (x == '#') = false) ch h
  · exact ht ch h
  · exact (by decide : ∀ x ∈ ("&version=" : String).data, (x == '#') = false) ch h
  · exact hv ch h

/-- Vendor round trip: re-appending id, token and version as query parameters
to the base URL of a vendor connection re-parses to the same connection,
provided the id contains no `&`. -/
theorem roundtrip_vendor (s : String) (u : URLRecord) (c : Connection)
    (hu : parseURL s = some u) (hv : parseVercelConnectionString s = some c)
    (hamp : ∀ ch ∈ c.id.data, (ch == '&') = false) :
    parseConnectionString
        (c.baseUrl ++ "?id=" ++ c.id ++ "&token=" ++ c.token ++ "&version=" ++ c.version)
      = some c := by
  have hw := parseURL_wf s u hu
  obtain ⟨prest, hps⟩ := hw.path_slash
  obtain ⟨u₀, hu₀, hh, hsch, hp, hg, t, ht, htn, hcf⟩ := (vercel_spec s c).mp hv
  have huu : u = u₀ := by
    rw [hu] at hu₀
    exact Option.some.inj hu₀
  subst huu
  subst hcf
  have hsegslash := firstPathSegment_no_slash u.pathname prest hps
  have hsegclean : ∀ ch ∈ (firstPathSegment u.pathname).data, delimPath ch = false :=
    fun ch hch => hw.path_clean ch (firstPathSegment_mem u.pathname prest hps ch hch)
  have hseghash : ∀ ch ∈ (firstPathSegment u.pathname).data, (ch == '#') = false := by
    intro ch hch
    have hor : ((ch == '?') || (ch == '#')) = false := hsegclean ch hch
    exact (Bool.or_eq_false_iff.mp hor).2
  have htclean := searchParams_value_clean u hw "token" t ht
  have hpairs := parseQueryPairs_reconstruct (firstPathSegment u.pathname) t "1"
    (fun ch hch => hamp ch hch)
    (fun ch hch => (htclean ch hch).1)
    (by decide)
  have hqhash := recon_query_hash_clean (firstPathSegment u.pathname) t "1"
    hseghash (fun ch hch => (htclean ch hch).2) (by decide)
  have hwf₈ := vendor_url_wf (firstPathSegment u.pathname)
    (some ("id=" ++ firstPathSegment u.pathname ++ "&token=" ++ t ++ "&version=" ++ "1"))
    hsegclean (by
      intro x hx
      have hxx := Option.some.inj hx
      subst hxx
      exact hqhash)
  have hr : ("https://edge-config.vercel.com/" ++ firstPathSegment u.pathname)
        ++ "?id=" ++ firstPathSegment u.pathname ++ "&token=" ++ t ++ "&version=" ++ "1"
      = urlToString ⟨"https", none, "edge-config.vercel.com",
          String.mk ('/' :: (firstPathSegment u.pathname).data),
          some ("id=" ++ firstPathSegment u.pathname ++ "&token=" ++ t
            ++ "&version=" ++ "1"), none⟩ := by
    rw [recon_split]
    rw [urlToString_query ⟨"https", none, "edge-config.vercel.com",
        String.mk ('/' :: (firstPathSegment u.pathname).data),
        some ("id=" ++ firstPathSegment u.pathname ++ "&token=" ++ t
          ++ "&version=" ++ "1"), none⟩
        ("id=" ++ firstPathSegment u.pathname ++ "&token=" ++ t ++ "&version=" ++ "1")
        rfl rfl]
    rw [show ({(⟨"https", none, "edge-config.vercel.com",
        String.mk ('/' :: (firstPathSegment u.pathname).data),
        some ("id=" ++ firstPathSegment u.pathname ++ "&token=" ++ t
          ++ "&version=" ++ "1"), none⟩ : URLRecord) with query := none})
      = (⟨"https", none, "edge-config.vercel.com",
          String.mk ('/' :: (firstPathSegment u.pathname).data), none, none⟩ : URLRecord)
      from rfl]
    rw [← vendor_url_eq (firstPathSegment u.pathname)]
  have hpu₈ : parseURL (("https://edge-config.vercel.com/" ++ firstPathSegment u.pathname)
        ++ "?id=" ++ firstPathSegment u.pathname ++ "&token=" ++ t ++ "&version=" ++ "1")
      = some ⟨"https", none, "edge-config.vercel.com",
          String.mk ('/' :: (firstPathSegment u.pathname).data),
          some ("id=" ++ firstPathSegment u.pathname ++ "&token=" ++ t
            ++ "&version=" ++ "1"), none⟩ := by
    rw [hr]
    exact parseURL_toString _ hwf₈
  have hsegmk : firstPathSegment (String.mk ('/' :: (firstPathSegment u.pathname).data))
      = firstPathSegment u.pathname := firstPathSegment_mk _ hsegslash
  have hparams := searchParams_of_pairs ⟨"https", none, "edge-config.vercel.com",
      String.mk ('/' :: (firstPathSegment u.pathname).data),
      some ("id=" ++ firstPathSegment u.pathname ++ "&token=" ++ t ++ "&version=" ++ "1"),
      none⟩ _ (firstPathSegment u.pathname) t "1" rfl hpairs
  have hecfgseg : "ecfg".data.isPrefixOf (firstPathSegment u.pathname).data = true := by
    have hps' := prefix_of_firstSeg u.pathname prest hps "ecfg".data (by decide)
    have hdl : ("/ecfg" : String).data = '/' :: ("ecfg" : String).data := rfl
    rw [hdl] at hp
    rw [hps'] at hp
    exact hp
  have hpre₈ : "/ecfg".data.isPrefixOf
      (String.mk ('/' :: (firstPathSegment u.pathname).data)).data = true := by
    show ("/ecfg" : String).data.isPrefixOf
      ('/' :: (firstPathSegment u.pathname).data) = true
    have hdl : ("/ecfg" : String).data = '/' :: ("ecfg" : String).data := rfl
    rw [hdl]
    show (('/' : Char) == '/'
      && "ecfg".data.isPrefixOf (firstPathSegment u.pathname).data) = true
    rw [hecfgseg]
    rfl
  have hvok := (vercel_spec
      (("https://edge-config.vercel.com/" ++ firstPathSegment u.pathname)
        ++ "?id=" ++ firstPathSegment u.pathname ++ "&token=" ++ t ++ "&version=" ++ "1")
      ⟨ConnectionType.vercel,
        "https://edge-config.vercel.com/" ++ firstPathSegment u.pathname,
        firstPathSegment u.pathname, t, "1"⟩).mpr
    ⟨_, hpu₈, rfl, rfl, hpre₈, (by rw [hsegmk]; exact hg), t, hparams.2.1, htn,
      (by rw [hsegmk])⟩
  exact parseConn_vercel _ _ hvok

/-- External round trip: for a fragment-free input on which the vendor
recognizer fails and the external recognizer succeeds, re-appending id, token
and version as query parameters to the base URL re-parses to the same
connection, provided the id contains no `&`. -/
theorem roundtrip_external (s : String) (u : URLRecord) (c : Connection)
    (hu : parseURL s = some u) (hfrag : u.fragment = none)
    (hvn : parseVercelConnectionString s = none)
    (hext : parseExternalConnectionString s = some c)
    (hamp : ∀ ch ∈ c.id.data, (ch == '&') = false) :
    parseConnectionString
        (c.baseUrl ++ "?id=" ++ c.id ++ "&token=" ++ c.token ++ "&version=" ++ c.version)
      = some c := by
  have hw := parseURL_wf s u hu
  obtain ⟨prest, hps⟩ := hw.path_slash
  obtain ⟨u₀, hu₀, i, t, hi, ht, hine, htne, hcf⟩ := (external_spec s c).mp hext
  have huu : u = u₀ := by
    rw [hu] at hu₀
    exact Option.some.inj hu₀
  subst huu
  obtain ⟨sc, ui, ho, pa, qq, fr⟩ := u
  have hfr : fr = none := hfrag
  subst hfr
  subst hcf
  have hihash : ∀ ch ∈ i.data, (ch == '#') = false :=
    resolvedId_clean ⟨sc, ui, ho, pa, qq, none⟩ hw i hi
  have htclean := searchParams_value_clean ⟨sc, ui, ho, pa, qq, none⟩ hw "token" t ht
  have hvne : jsOrDefault (searchParamsGet ⟨sc, ui, ho, pa, qq, none⟩ "version") "1" ≠ "" :=
    jsOrDefault_ne_empty _
  have hverhash : ∀ ch ∈ (jsOrDefault
      (searchParamsGet ⟨sc, ui, ho, pa, qq, none⟩ "version") "1").data,
      (ch == '#') = false := by
    cases hv0 : searchParamsGet ⟨sc, ui, ho, pa, qq, none⟩ "version" with
    | none =>
      exact (by decide : ∀ x ∈ ("1" : String).data, (x == '#') = false)
    | some v0 =>
      show ∀ ch ∈ (if (v0 == "") = true then "1" else v0).data, (ch == '#') = false
      by_cases hv00 : (v0 == "") = true
      · rw [if_pos hv00]
        exact (by decide : ∀ x ∈ ("1" : String).data, (x == '#') = false)
      · rw [if_neg hv00]
        intro ch hch
        exact (searchParams_value_clean ⟨sc, ui, ho, pa, qq, none⟩ hw "version" v0 hv0
          ch hch).2
  have hveramp : ∀ ch ∈ (jsOrDefault
      (searchParamsGet ⟨sc, ui, ho, pa, qq, none⟩ "version") "1").data,
      (ch == '&') = false := by
    cases hv0 : searchParamsGet ⟨sc, ui, ho, pa, qq, none⟩ "version" with
    | none =>
      exact (by decide : ∀ x ∈ ("1" : String).data, (x == '&') = false)
    | some v0 =>
      show ∀ ch ∈ (if (v0 == "") = true then "1" else v0).data, (ch == '&') = false
      by_cases hv00 : (v0 == "") = true
      · rw [if_pos hv00]
        exact (by decide : ∀ x ∈ ("1" : String).data, (x == '&') = false)
      · rw [if_neg hv00]
        intro ch hch
        exact (searchParams_value_clean ⟨sc, ui, ho, pa, qq, none⟩ hw "version" v0 hv0
          ch hch).1
  have hpairs := parseQueryPairs_reconstruct i t
    (jsOrDefault (searchParamsGet ⟨sc, ui, ho, pa, qq, none⟩ "version") "1")
    (fun ch hch => hamp ch hch)
    (fun ch hch => (htclean ch hch).1)
    hveramp
  have hqhash := recon_query_hash_clean i t
    (jsOrDefault (searchParamsGet ⟨sc, ui, ho, pa, qq, none⟩ "version") "1")
    hihash (fun ch hch => (htclean ch hch).2) hverhash
  have hw' : URLWf ⟨sc, ui, ho, pa, none, none⟩ :=
    URLWf_set_query ⟨sc, ui, ho, pa, qq, none⟩ hw none (by intro x hx; cases hx)
  have hwf₈ : URLWf ⟨sc, ui, ho, pa,
      some ("id=" ++ i ++ "&token=" ++ t ++ "&version="
        ++ jsOrDefault (searchParamsGet ⟨sc, ui, ho, pa, qq, none⟩ "version") "1"),
      none⟩ :=
    URLWf_set_query ⟨sc, ui, ho, pa, none, none⟩ hw' _ (by
      intro x hx
      have hxx := Option.some.inj hx
      subst hxx
      exact hqhash)
  have hr : urlToString ⟨sc, ui, ho, pa, none, none⟩
        ++ "?id=" ++ i ++ "&token=" ++ t ++ "&version="
        ++ jsOrDefault (searchParamsGet ⟨sc, ui, ho, pa, qq, none⟩ "version") "1"
      = urlToString ⟨sc, ui, ho, pa,
          some ("id=" ++ i ++ "&token=" ++ t ++ "&version="
            ++ jsOrDefault (searchParamsGet ⟨sc, ui, ho, pa, qq, none⟩ "version") "1"),
          none⟩ := by
    rw [recon_split]
    rw [urlToString_query ⟨sc, ui, ho, pa,
        some ("id=" ++ i ++ "&token=" ++ t ++ "&version="
          ++ jsOrDefault (searchParamsGet ⟨sc, ui, ho, pa, qq, none⟩ "version") "1"),
        none⟩
        ("id=" ++ i ++ "&token=" ++ t ++ "&version="
          ++ jsOrDefault (searchParamsGet ⟨sc, ui, ho, pa, qq, none⟩ "version") "1")
        rfl rfl]
  have hpu₈ : parseURL (urlToString ⟨sc, ui, ho, pa, none, none⟩
        ++ "?id=" ++ i ++ "&token=" ++ t ++ "&version="
        ++ jsOrDefault (searchParamsGet ⟨sc, ui, ho, pa, qq, none⟩ "version") "1")
      = some ⟨sc, ui, ho, pa,
          some ("id=" ++ i ++ "&token=" ++ t ++ "&version="
            ++ jsOrDefault (searchParamsGet ⟨sc, ui, ho, pa, qq, none⟩ "version") "1"),
          none⟩ := by
    rw [hr]
    exact parseURL_toString _ hwf₈
  have hparams := searchParams_of_pairs ⟨sc, ui, ho, pa,
      some ("id=" ++ i ++ "&token=" ++ t ++ "&version="
        ++ jsOrDefault (searchParamsGet ⟨sc, ui, ho, pa, qq, none⟩ "version") "1"),
      none⟩ _ i t
    (jsOrDefault (searchParamsGet ⟨sc, ui, ho, pa, qq, none⟩ "version") "1") rfl hpairs
  have hvn₈ : parseVercelConnectionString (urlToString ⟨sc, ui, ho, pa, none, none⟩
        ++ "?id=" ++ i ++ "&token=" ++ t ++ "&version="
        ++ jsOrDefault (searchParamsGet ⟨sc, ui, ho, pa, qq, none⟩ "version") "1")
      = none := by
    cases hv₈ : parseVercelConnectionString (urlToString ⟨sc, ui, ho, pa, none, none⟩
        ++ "?id=" ++ i ++ "&token=" ++ t ++ "&version="
        ++ jsOrDefault (searchParamsGet ⟨sc, ui, ho, pa, qq, none⟩ "version") "1") with
    | none => rfl
    | some c₂ =>
      exfalso
      obtain ⟨u₂, hu₂, hh₂, hs₂, hp₂, hg₂, t₂, ht₂, htn₂, -⟩ :=
        (vercel_spec _ c₂).mp hv₈
      have hu₂₈ : u₂ = ⟨sc, ui, ho, pa,
          some ("id=" ++ i ++ "&token=" ++ t ++ "&version="
            ++ jsOrDefault (searchParamsGet ⟨sc, ui, ho, pa, qq, none⟩ "version") "1"),
          none⟩ := by
        rw [hpu₈] at hu₂
        exact (Option.some.inj hu₂).symm
      subst hu₂₈
      exact vercel_none_elim s ⟨sc, ui, ho, pa, qq, none⟩ hu hvn
        ⟨hh₂, hs₂, hp₂, hg₂, t, ht, htne⟩
  have hid₈ : resolvedId ⟨sc, ui, ho, pa,
      some ("id=" ++ i ++ "&token=" ++ t ++ "&version="
        ++ jsOrDefault (searchParamsGet ⟨sc, ui, ho, pa, qq, none⟩ "version") "1"),
      none⟩ = some i := by
    by_cases hpre : "/ecfg_".data.isPrefixOf pa.data = true
    · have hov : resolvedId ⟨sc, ui, ho, pa, qq, none⟩
          = jsNonEmpty (firstPathSegment pa) :=
        resolvedId_override _ (Or.inr hpre)
      rw [hov] at hi
      have hov₈ : resolvedId ⟨sc, ui, ho, pa,
          some ("id=" ++ i ++ "&token=" ++ t ++ "&version="
            ++ jsOrDefault (searchParamsGet ⟨sc, ui, ho, pa, qq, none⟩ "version") "1"),
          none⟩ = jsNonEmpty (firstPathSegment pa) :=
        resolvedId_override _ (Or.inr hpre)
      rw [hov₈]
      exact hi
    · have hpre' : "/ecfg_".data.isPrefixOf pa.data = false :=
        Bool.eq_false_iff.mpr hpre
      have hq8 := resolvedId_query ⟨sc, ui, ho, pa,
          some ("id=" ++ i ++ "&token=" ++ t ++ "&version="
            ++ jsOrDefault (searchParamsGet ⟨sc, ui, ho, pa, qq, none⟩ "version") "1"),
          none⟩ (by
            rw [hparams.1]
            simp [jsFalsy, beq_eq_false_iff_ne.mpr hine]) hpre'
      rw [hq8, hparams.1]
  have hextok := (external_spec (urlToString ⟨sc, ui, ho, pa, none, none⟩
      ++ "?id=" ++ i ++ "&token=" ++ t ++ "&version="
      ++ jsOrDefault (searchParamsGet ⟨sc, ui, ho, pa, qq, none⟩ "version") "1")
      ⟨ConnectionType.external, urlToString ⟨sc, ui, ho, pa, none, none⟩, i, t,
        jsOrDefault (searchParamsGet ⟨sc, ui, ho, pa, qq, none⟩ "version") "1"⟩).mpr
    ⟨_, hpu₈, i, t, hid₈, hparams.2.1, hine, htne, by
      rw [show ({(⟨sc, ui, ho, pa,
          some ("id=" ++ i ++ "&token=" ++ t ++ "&version="
            ++ jsOrDefault (searchParamsGet ⟨sc, ui, ho, pa, qq, none⟩ "version") "1"),
          none⟩ : URLRecord) with query := none})
        = (⟨sc, ui, ho, pa, none, none⟩ : URLRecord) from rfl]
      rw [hparams.2.2]
      rw [jsOrDefault_some _ hvne]⟩
  rw [parseConn_external _ hvn₈]
  exact hextok

/-- Counterexample to C8 as stated: with a fragment in the input URL, the
reconstructed string appends the query after the fragment, so the re-parse
finds no token and fails instead of returning an equivalent connection. -/
theorem claim_C8_counterexample :
    parseConnectionString "https://example.com/x?id=a&token=t#f"
        = some ⟨ConnectionType.external, "https://example.com/x#f", "a", "t", "1"⟩ ∧
      parseConnectionString
          ((⟨ConnectionType.external, "https://example.com/x#f", "a", "t",
              "1"⟩ : Connection).baseUrl
            ++ "?id=" ++ (⟨ConnectionType.external, "https://example.com/x#f", "a", "t",
              "1"⟩ : Connection).id
            ++ "&token=" ++ (⟨ConnectionType.external, "https://example.com/x#f", "a",
              "t", "1"⟩ : Connection).token
            ++ "&version=" ++ (⟨ConnectionType.external, "https://example.com/x#f", "a",
              "t", "1"⟩ : Connection).version)
        = none :=
  ⟨by decide, by decide⟩

/-- C8 amended: for every input without a fragment and whose connection id
contains no `&`, parsing the string formed from the base URL with the same id,
token and version re-appended as query parameters yields the same connection. -/
theorem claim_C8_amended (s : String) (u : URLRecord) (c : Connection)
    (hu : parseURL s = some u) (hfrag : u.fragment = none)
    (hc : parseConnectionString s = some c)
    (hamp : ∀ ch ∈ c.id.data, (ch == '&') = false) :
    parseConnectionString
        (c.baseUrl ++ "?id=" ++ c.id ++ "&token=" ++ c.token ++ "&version=" ++ c.version)
      = some c := by
  cases hv : parseVercelConnectionString s with
  | some c' =>
    have heq := parseConn_vercel s c' hv
    rw [heq] at hc
    have hcc : c' = c := Option.some.inj hc
    subst hcc
    exact roundtrip_vendor s u c' hu hv hamp
  | none =>
    rw [parseConn_external s hv] at hc
    exact roundtrip_external s u c hu hfrag hv hc hamp

/-- Witness for the amended C8 at a fragment-free external connection string. -/
theorem claim_C8_amended_witness :
    parseConnectionString
        ((⟨ConnectionType.external, "https://example.com/", "abc", "tkn",
            "1"⟩ : Connection).baseUrl
          ++ "?id=" ++ (⟨ConnectionType.external, "https://example.com/", "abc", "tkn",
            "1"⟩ : Connection).id
          ++ "&token=" ++ (⟨ConnectionType.external, "https://example.com/", "abc",
            "tkn", "1"⟩ : Connection).token
          ++ "&version=" ++ (⟨ConnectionType.external, "https://example.com/", "abc",
            "tkn", "1"⟩ : Connection).version)
      = some ⟨ConnectionType.external, "https://example.com/", "abc", "tkn", "1"⟩ :=
  claim_C8_amended "https://example.com/?id=abc&token=tkn"
    ⟨"https", none, "example.com", "/", some "id=abc&token=tkn", none⟩
    ⟨ConnectionType.external, "https://example.com/", "abc", "tkn", "1"⟩
    (by decide) (by decide) (by decide) (by decide)
